import Mathlib

/-!
# Verification of gadd's change-ordering, status-priority and staging logic

This development shallowly embeds the core data structures and operations of
the `gadd` interactive staging tool and proves properties about them:

* the association-list model of the `HashMap`s used by `ChangeOrdering`
  (path → position) and `StatusPriorityMap` (status → priority);
* the byte-comparison helper `ChangeOrdering::compare_paths`, which decodes
  both paths with `String::from_utf8_lossy` and compares the resulting
  strings (modelled as comparison of the decoded scalar-value sequences);
* the stable sort underlying Rust's `slice::sort_by` (modelled as a stable
  insertion sort; Rust guarantees the sort is stable, and all comparators
  used by the program are total preorders, under which all stable sorts
  agree on the final element order);
* `ChangeOrdering::sort_changes_and_save_ordering` (seeding) and
  `ChangeOrdering::sort_changes` (resorting), from
  `src/changes/change_ordering.rs`;
* `StatusPriorityMap::new` / `compare_statuses`, from
  `src/changes/status_priorities.rs`;
* merge-conflict classification and the 1:1 matching of conflict entries
  against status-scan paths, from `ChangeList::populate_conflicting_changes`
  in `src/changes/change_list.rs`;
* `Change::unstage` / `new_index_entry` from `src/changes/change.rs`,
  `ChangeList::unstage_all_changes` and `ChangeList::select_default_change`
  from `src/changes/change_list.rs`.

Machine integers (`usize`, byte values, object ids, file modes) are modelled
as `Nat`; none of the modelled code paths can overflow them.
-/

namespace Gadd

/-! ## Association lists

`ChangeOrdering.map` and `StatusPriorityMap.map` are Rust `HashMap`s, used
only through `get`, `insert` (overwriting) and `len`.  We model them as
association lists with insert-overwrite semantics; `alGet` finds the unique
binding of a key (unique because every insert overwrites in place). -/

/-- Lookup in an association list (models `HashMap::get`). -/
def alGet {κ β : Type} [DecidableEq κ] : List (κ × β) → κ → Option β
  | [], _ => none
  | (k', v) :: rest, k => if k' = k then some v else alGet rest k

/-- Insert-with-overwrite in an association list (models `HashMap::insert`):
replaces the binding in place if the key is present, else appends. -/
def alInsert {κ β : Type} [DecidableEq κ] : List (κ × β) → κ → β → List (κ × β)
  | [], k, v => [(k, v)]
  | (k', v') :: rest, k, v =>
    if k' = k then (k, v) :: rest else (k', v') :: alInsert rest k v

/-- Insert a list of bindings left to right (models a loop of inserts). -/
def alInsertList {κ β : Type} [DecidableEq κ]
    (m : List (κ × β)) (ps : List (κ × β)) : List (κ × β) :=
  ps.foldl (fun m p => alInsert m p.1 p.2) m

/-- The list of keys of an association list. -/
def alKeys {κ β : Type} (m : List (κ × β)) : List κ := m.map (·.1)

/-- The list of values of an association list. -/
def alValues {κ β : Type} (m : List (κ × β)) : List β := m.map (·.2)

section AssocLemmas

variable {κ β : Type}

@[simp] theorem alKeys_nil : alKeys ([] : List (κ × β)) = [] := rfl

@[simp] theorem alKeys_cons (k : κ) (v : β) (m : List (κ × β)) :
    alKeys ((k, v) :: m) = k :: alKeys m := rfl

@[simp] theorem alKeys_append (m m' : List (κ × β)) :
    alKeys (m ++ m') = alKeys m ++ alKeys m' := List.map_append _ m m'

@[simp] theorem alValues_nil : alValues ([] : List (κ × β)) = [] := rfl

@[simp] theorem alValues_cons (k : κ) (v : β) (m : List (κ × β)) :
    alValues ((k, v) :: m) = v :: alValues m := rfl

@[simp] theorem alValues_append (m m' : List (κ × β)) :
    alValues (m ++ m') = alValues m ++ alValues m' := List.map_append _ m m'

variable [DecidableEq κ]

theorem alGet_insert_self (m : List (κ × β)) (k : κ) (v : β) :
    alGet (alInsert m k v) k = some v := by
  induction m with
  | nil => simp [alInsert, alGet]
  | cons p rest ih =>
    obtain ⟨k', v'⟩ := p
    by_cases h : k' = k
    · simp [alInsert, h, alGet]
    · simp [alInsert, h, alGet, ih]

theorem alGet_insert_ne (m : List (κ × β)) (k k' : κ) (v : β) (h : k ≠ k') :
    alGet (alInsert m k v) k' = alGet m k' := by
  induction m with
  | nil => simp [alInsert, alGet, h]
  | cons p rest ih =>
    obtain ⟨k₀, v₀⟩ := p
    by_cases h0 : k₀ = k
    · subst h0
      simp [alInsert, alGet, h]
    · simp only [alInsert, if_neg h0, alGet]
      by_cases h1 : k₀ = k'
      · simp [h1]
      · simp [h1, ih]

theorem alGet_eq_none_iff (m : List (κ × β)) (k : κ) :
    alGet m k = none ↔ k ∉ alKeys m := by
  induction m with
  | nil => simp [alGet]
  | cons p rest ih =>
    obtain ⟨k', v⟩ := p
    by_cases h : k' = k
    · subst h
      simp [alGet]
    · simp only [alGet, if_neg h, alKeys_cons, List.mem_cons]
      rw [ih]
      constructor
      · rintro hk (rfl | hmem)
        · exact h rfl
        · exact hk hmem
      · intro hk hmem
        exact hk (Or.inr hmem)

/-- Inserting a fresh key appends the binding at the end. -/
theorem alInsert_eq_append (m : List (κ × β)) (k : κ) (v : β)
    (h : k ∉ alKeys m) : alInsert m k v = m ++ [(k, v)] := by
  induction m with
  | nil => simp [alInsert]
  | cons p rest ih =>
    obtain ⟨k', v'⟩ := p
    simp only [alKeys_cons, List.mem_cons] at h
    push_neg at h
    have hne : ¬k' = k := fun hc => h.1 hc.symm
    simp [alInsert, hne, ih h.2]

/-- Inserting a list of bindings whose keys are fresh and mutually distinct
is plain list append. -/
theorem alInsertList_eq_append (m : List (κ × β)) (ps : List (κ × β))
    (hfresh : ∀ k ∈ alKeys ps, k ∉ alKeys m) (hnodup : (alKeys ps).Nodup) :
    alInsertList m ps = m ++ ps := by
  induction ps generalizing m with
  | nil => simp [alInsertList]
  | cons p rest ih =>
    obtain ⟨k, v⟩ := p
    simp only [alKeys_cons, List.nodup_cons] at hnodup
    have hk : k ∉ alKeys m := hfresh k (by simp)
    have step : alInsert m k v = m ++ [(k, v)] := alInsert_eq_append m k v hk
    have hfresh' : ∀ k' ∈ alKeys rest, k' ∉ alKeys (m ++ [(k, v)]) := by
      intro k' hk'
      have h1 : k' ∉ alKeys m := hfresh k' (by simp [hk'])
      have h2 : k' ≠ k := fun hcontra => hnodup.1 (hcontra ▸ hk')
      simp only [alKeys_append, List.mem_append, alKeys_cons, alKeys_nil,
        List.mem_singleton]
      rintro (hmem | rfl)
      · exact h1 hmem
      · exact h2 rfl
    have tail := ih (m ++ [(k, v)]) hfresh' hnodup.2
    simp only [alInsertList, List.foldl_cons] at tail ⊢
    rw [step, tail, List.append_assoc]
    rfl

end AssocLemmas

/-! ## Orderings

Rust's `usize::cmp` and the comparison of decoded strings. -/

/-- `usize::cmp` (both values fit in `Nat`). -/
def cmpN (a b : Nat) : Ordering :=
  if a < b then .lt else if a = b then .eq else .gt

theorem cmpN_eq_lt {a b : Nat} : cmpN a b = .lt ↔ a < b := by
  unfold cmpN
  split_ifs with h1 h2
  · simp [h1]
  · simp only [reduceCtorEq, false_iff]; omega
  · simp only [reduceCtorEq, false_iff]; omega

theorem cmpN_eq_eq {a b : Nat} : cmpN a b = .eq ↔ a = b := by
  unfold cmpN
  split_ifs with h1 h2
  · simp only [reduceCtorEq, false_iff]; omega
  · simp [h2]
  · simp only [reduceCtorEq, false_iff]; omega

theorem cmpN_eq_gt {a b : Nat} : cmpN a b = .gt ↔ b < a := by
  unfold cmpN
  split_ifs with h1 h2
  · simp only [reduceCtorEq, false_iff]; omega
  · simp only [reduceCtorEq, false_iff]; omega
  · simp only [true_iff]; omega

/-- Lexicographic comparison of two sequences of Unicode scalar values —
Rust's `str::cmp` on the `from_utf8_lossy` decodings compares the UTF-8
bytes of the two strings, which orders strings exactly by their scalar-value
sequences (UTF-8 encoding is order-preserving). -/
def cmpList : List Nat → List Nat → Ordering
  | [], [] => .eq
  | [], _ :: _ => .lt
  | _ :: _, [] => .gt
  | a :: as, b :: bs =>
    match cmpN a b with
    | .eq => cmpList as bs
    | o => o

theorem cmpList_cons (a b : Nat) (as bs : List Nat) :
    cmpList (a :: as) (b :: bs) =
      match cmpN a b with
      | .eq => cmpList as bs
      | o => o := rfl

theorem cmpList_eq_eq : ∀ {x y : List Nat}, cmpList x y = .eq ↔ x = y := by
  intro x
  induction x with
  | nil => intro y; cases y <;> simp [cmpList]
  | cons a as ih =>
    intro y
    cases y with
    | nil => simp [cmpList]
    | cons b bs =>
      rw [cmpList_cons]
      rcases h : cmpN a b with _ | _ | _
      · simp only [reduceCtorEq, false_iff, List.cons.injEq, not_and]
        intro hab
        exact absurd hab (cmpN_eq_lt.mp h).ne
      · have hab := cmpN_eq_eq.mp h
        subst hab
        simp [ih]
      · simp only [reduceCtorEq, false_iff, List.cons.injEq, not_and]
        intro hab
        have := cmpN_eq_gt.mp h
        omega

theorem cmpList_gt_iff_lt : ∀ {x y : List Nat}, cmpList x y = .gt ↔ cmpList y x = .lt := by
  intro x
  induction x with
  | nil => intro y; cases y <;> simp [cmpList]
  | cons a as ih =>
    intro y
    cases y with
    | nil => simp [cmpList]
    | cons b bs =>
      rw [cmpList_cons, cmpList_cons]
      rcases h : cmpN a b with _ | _ | _
      · have : cmpN b a = .gt := cmpN_eq_gt.mpr (cmpN_eq_lt.mp h)
        simp [this]
      · have hab := cmpN_eq_eq.mp h
        subst hab
        rw [h]
        simp [ih]
      · have : cmpN b a = .lt := cmpN_eq_lt.mpr (cmpN_eq_gt.mp h)
        simp [this]

theorem cmpList_cons_of_lt {a b : Nat} (as bs : List Nat) (h : cmpN a b = .lt) :
    cmpList (a :: as) (b :: bs) = .lt := by rw [cmpList_cons, h]

theorem cmpList_cons_of_eq {a b : Nat} (as bs : List Nat) (h : cmpN a b = .eq) :
    cmpList (a :: as) (b :: bs) = cmpList as bs := by rw [cmpList_cons, h]

theorem cmpList_cons_of_gt {a b : Nat} (as bs : List Nat) (h : cmpN a b = .gt) :
    cmpList (a :: as) (b :: bs) = .gt := by rw [cmpList_cons, h]

theorem cmpList_lt_trans : ∀ {x y z : List Nat},
    cmpList x y = .lt → cmpList y z = .lt → cmpList x z = .lt := by
  intro x
  induction x with
  | nil =>
    intro y z hxy hyz
    cases y with
    | nil => exact hyz
    | cons b bs =>
      cases z with
      | nil => simp [cmpList] at hyz
      | cons c cs => simp [cmpList]
  | cons a as ih =>
    intro y z hxy hyz
    cases y with
    | nil => simp [cmpList] at hxy
    | cons b bs =>
      cases z with
      | nil => simp [cmpList] at hyz
      | cons c cs =>
        rcases hab : cmpN a b with _ | _ | _
        · rcases hbc : cmpN b c with _ | _ | _
          · exact cmpList_cons_of_lt as cs
              (cmpN_eq_lt.mpr (lt_trans (cmpN_eq_lt.mp hab) (cmpN_eq_lt.mp hbc)))
          · have hbc' := cmpN_eq_eq.mp hbc
            subst hbc'
            exact cmpList_cons_of_lt as cs hab
          · rw [cmpList_cons_of_gt bs cs hbc] at hyz
            simp at hyz
        · have hab' := cmpN_eq_eq.mp hab
          subst hab'
          rw [cmpList_cons_of_eq as bs hab] at hxy
          rcases hbc : cmpN a c with _ | _ | _
          · exact cmpList_cons_of_lt as cs hbc
          · rw [cmpList_cons_of_eq bs cs hbc] at hyz
            rw [cmpList_cons_of_eq as cs hbc]
            exact ih hxy hyz
          · rw [cmpList_cons_of_gt bs cs hbc] at hyz
            simp at hyz
        · rw [cmpList_cons_of_gt as bs hab] at hxy
          simp at hxy

theorem cmpList_refl (x : List Nat) : cmpList x x = .eq := cmpList_eq_eq.mpr rfl

theorem cmpList_ne_gt_trans {x y z : List Nat}
    (hxy : cmpList x y ≠ .gt) (hyz : cmpList y z ≠ .gt) : cmpList x z ≠ .gt := by
  rcases h1 : cmpList x y with _ | _ | _
  · rcases h2 : cmpList y z with _ | _ | _
    · have := cmpList_lt_trans h1 h2
      simp [this]
    · have := cmpList_eq_eq.mp h2
      subst this
      simp [h1]
    · exact absurd h2 hyz
  · have := cmpList_eq_eq.mp h1
    subst this
    exact hyz
  · exact absurd h1 hxy

/-! ## UTF-8 lossy decoding

`ChangeOrdering::compare_paths` decodes each byte path with
`String::from_utf8_lossy` and compares the resulting strings.
`from_utf8_lossy` replaces every maximal subpart of an ill-formed UTF-8
subsequence with one U+FFFD replacement character (the substitution of
maximal subparts recommended by Unicode, which is what Rust's
`Utf8Chunks` implements).  We model the decoder over byte lists. -/

/-- A path is a sequence of bytes (Rust `Vec<u8>`; paths need not be valid
UTF-8). -/
abbrev Path := List Nat

/-- One step of the UTF-8 decoder: given the first byte and the remaining
bytes, returns the decoded Unicode scalar value — or U+FFFD (0xFFFD) for a
maximal ill-formed subpart — together with the bytes not yet consumed. -/
def utf8Step (b0 : Nat) (rest : List Nat) : Nat × List Nat :=
  if b0 < 0x80 then (b0, rest)
  else if 0xC2 ≤ b0 ∧ b0 ≤ 0xDF then
    match rest with
    | b1 :: r1 =>
      if 0x80 ≤ b1 ∧ b1 ≤ 0xBF then ((b0 - 0xC0) * 0x40 + (b1 - 0x80), r1)
      else (0xFFFD, rest)
    | [] => (0xFFFD, rest)
  else if 0xE0 ≤ b0 ∧ b0 ≤ 0xEF then
    -- The admissible range of the first continuation byte depends on the
    -- lead byte: 0xE0 excludes overlong forms, 0xED excludes surrogates.
    let lo1 := if b0 = 0xE0 then 0xA0 else 0x80
    let hi1 := if b0 = 0xED then 0x9F else 0xBF
    match rest with
    | b1 :: r1 =>
      if lo1 ≤ b1 ∧ b1 ≤ hi1 then
        match r1 with
        | b2 :: r2 =>
          if 0x80 ≤ b2 ∧ b2 ≤ 0xBF then
            ((b0 - 0xE0) * 0x1000 + (b1 - 0x80) * 0x40 + (b2 - 0x80), r2)
          else (0xFFFD, r1)
        | [] => (0xFFFD, r1)
      else (0xFFFD, rest)
    | [] => (0xFFFD, rest)
  else if 0xF0 ≤ b0 ∧ b0 ≤ 0xF4 then
    -- 0xF0 excludes overlong forms, 0xF4 excludes values above U+10FFFF.
    let lo1 := if b0 = 0xF0 then 0x90 else 0x80
    let hi1 := if b0 = 0xF4 then 0x8F else 0xBF
    match rest with
    | b1 :: r1 =>
      if lo1 ≤ b1 ∧ b1 ≤ hi1 then
        match r1 with
        | b2 :: r2 =>
          if 0x80 ≤ b2 ∧ b2 ≤ 0xBF then
            match r2 with
            | b3 :: r3 =>
              if 0x80 ≤ b3 ∧ b3 ≤ 0xBF then
                ((b0 - 0xF0) * 0x40000 + (b1 - 0x80) * 0x1000 +
                  (b2 - 0x80) * 0x40 + (b3 - 0x80), r3)
              else (0xFFFD, r2)
            | [] => (0xFFFD, r2)
          else (0xFFFD, r1)
        | [] => (0xFFFD, r1)
      else (0xFFFD, rest)
    | [] => (0xFFFD, rest)
  else (0xFFFD, rest)

theorem utf8Step_length (b0 : Nat) (rest : List Nat) :
    (utf8Step b0 rest).2.length ≤ rest.length := by
  rcases rest with _ | ⟨b1, _ | ⟨b2, _ | ⟨b3, r3⟩⟩⟩ <;>
    simp only [utf8Step] <;> split_ifs <;> simp <;> omega

/-- The decoding loop, with fuel.  Each step consumes at least one byte, so
fuel equal to the byte count always suffices (`lossyDecodeAux_fuel`). -/
def lossyDecodeAux : Nat → List Nat → List Nat
  | 0, _ => []
  | _ + 1, [] => []
  | fuel + 1, b :: rest =>
    let s := utf8Step b rest
    s.1 :: lossyDecodeAux fuel s.2

theorem lossyDecodeAux_fuel : ∀ (f1 f2 : Nat) (bytes : List Nat),
    bytes.length ≤ f1 → bytes.length ≤ f2 →
    lossyDecodeAux f1 bytes = lossyDecodeAux f2 bytes := by
  intro f1
  induction f1 with
  | zero =>
    intro f2 bytes h1 _
    have : bytes = [] := List.eq_nil_of_length_eq_zero (Nat.le_zero.mp h1)
    subst this
    cases f2 <;> rfl
  | succ f1 ih =>
    intro f2 bytes h1 h2
    cases bytes with
    | nil => cases f2 <;> rfl
    | cons b rest =>
      cases f2 with
      | zero => simp at h2
      | succ f2 =>
        simp only [lossyDecodeAux]
        congr 1
        have hlen : (utf8Step b rest).2.length ≤ rest.length := utf8Step_length b rest
        simp only [List.length_cons, Nat.succ_le_succ_iff] at h1 h2
        exact ih f2 _ (le_trans hlen h1) (le_trans hlen h2)

/-- The sequence of Unicode scalar values produced by
`String::from_utf8_lossy` on a byte sequence. -/
def lossyDecode (bytes : List Nat) : List Nat := lossyDecodeAux bytes.length bytes

/-- `ChangeOrdering::compare_paths`: decode both paths with
`String::from_utf8_lossy` and compare the resulting strings.  Comparing two
Rust strings compares their UTF-8 bytes, which orders them exactly by their
scalar-value sequences (UTF-8 encoding is order-preserving), so we compare
the decoded sequences lexicographically. -/
def comparePaths (p1 p2 : Path) : Ordering :=
  cmpList (lossyDecode p1) (lossyDecode p2)

theorem comparePaths_refl (p : Path) : comparePaths p p = .eq := cmpList_refl _

theorem comparePaths_gt_iff_lt {p q : Path} :
    comparePaths p q = .gt ↔ comparePaths q p = .lt := cmpList_gt_iff_lt

theorem comparePaths_lt_trans {p q r : Path} :
    comparePaths p q = .lt → comparePaths q r = .lt → comparePaths p r = .lt :=
  cmpList_lt_trans

theorem comparePaths_ne_gt_trans {p q r : Path} :
    comparePaths p q ≠ .gt → comparePaths q r ≠ .gt → comparePaths p r ≠ .gt :=
  cmpList_ne_gt_trans

/-! ## The stable sort

Rust's `slice::sort_by` is documented to be a stable sort.  Every comparator
the program passes to it is a total preorder (it is computed by comparing a
key drawn from a linearly ordered set), and all stable sorts agree on the
final element order for a total-preorder comparator, so we may model
`sort_by` by a stable insertion sort. -/

/-- Stable insertion of `a` into `l`: `a` is placed before the first element
it does not compare `.gt` against, so elements comparing equal keep their
original relative order. -/
def insertOrd {α : Type} (c : α → α → Ordering) (a : α) : List α → List α
  | [] => [a]
  | b :: bs =>
    match c a b with
    | .gt => b :: insertOrd c a bs
    | _ => a :: b :: bs

/-- Stable sort by a comparator (models `slice::sort_by`). -/
def sortByOrd {α : Type} (c : α → α → Ordering) : List α → List α
  | [] => []
  | x :: xs => insertOrd c x (sortByOrd c xs)

section SortLemmas

variable {α : Type} (c : α → α → Ordering)

theorem insertOrd_perm (a : α) (l : List α) : (insertOrd c a l).Perm (a :: l) := by
  induction l with
  | nil => exact List.Perm.refl _
  | cons b bs ih =>
    simp only [insertOrd]
    rcases c a b with _ | _ | _
    · exact List.Perm.refl _
    · exact List.Perm.refl _
    · exact List.Perm.trans (List.Perm.cons b ih) (List.Perm.swap a b bs)

theorem sortByOrd_perm (l : List α) : (sortByOrd c l).Perm l := by
  induction l with
  | nil => exact List.Perm.refl _
  | cons x xs ih =>
    exact List.Perm.trans (insertOrd_perm c x (sortByOrd c xs)) (List.Perm.cons x ih)

theorem mem_insertOrd {a x : α} {l : List α} :
    x ∈ insertOrd c a l ↔ x = a ∨ x ∈ l := by
  rw [(insertOrd_perm c a l).mem_iff]
  simp

theorem insertOrd_pairwise
    (Hswap : ∀ x y, c x y = .gt → c y x ≠ .gt)
    (Htrans : ∀ x y z, c x y ≠ .gt → c y z ≠ .gt → c x z ≠ .gt)
    (a : α) {l : List α} (hl : l.Pairwise (fun u v => c u v ≠ .gt)) :
    (insertOrd c a l).Pairwise (fun u v => c u v ≠ .gt) := by
  induction l with
  | nil => simp [insertOrd]
  | cons b bs ih =>
    rcases hl with _ | ⟨hb, hbs⟩
    simp only [insertOrd]
    rcases h : c a b with _ | _ | _
    · refine List.Pairwise.cons ?_ (List.Pairwise.cons hb hbs)
      intro y hy
      rcases List.mem_cons.mp hy with rfl | hy
      · simp [h]
      · exact Htrans a b y (by simp [h]) (hb y hy)
    · refine List.Pairwise.cons ?_ (List.Pairwise.cons hb hbs)
      intro y hy
      rcases List.mem_cons.mp hy with rfl | hy
      · simp [h]
      · exact Htrans a b y (by simp [h]) (hb y hy)
    · refine List.Pairwise.cons ?_ (ih hbs)
      intro y hy
      rcases (mem_insertOrd c).mp hy with heq | hy
      · rw [heq]
        exact Hswap a b h
      · exact hb y hy

theorem sortByOrd_pairwise
    (Hswap : ∀ x y, c x y = .gt → c y x ≠ .gt)
    (Htrans : ∀ x y z, c x y ≠ .gt → c y z ≠ .gt → c x z ≠ .gt)
    (l : List α) :
    (sortByOrd c l).Pairwise (fun u v => c u v ≠ .gt) := by
  induction l with
  | nil => simp [sortByOrd]
  | cons x xs ih => exact insertOrd_pairwise c Hswap Htrans x ih

/-- A list already sorted for the comparator is left unchanged (so a stable
sort of an already-sorted list is the identity). -/
theorem sortByOrd_eq_self {l : List α}
    (hl : l.Pairwise (fun u v => c u v ≠ .gt)) : sortByOrd c l = l := by
  induction l with
  | nil => rfl
  | cons x xs ih =>
    rcases hl with _ | ⟨hx, hxs⟩
    simp only [sortByOrd, ih hxs]
    cases xs with
    | nil => rfl
    | cons y ys =>
      have hxy : c x y ≠ .gt := hx y (by simp)
      simp only [insertOrd]

end SortLemmas

/-! ## Statuses

The repository consumes libgit2's per-path status flags (`git2::Status`, a
bitset).  We model the flag words as `Nat` bitmasks with libgit2's
`git_status_t` constant values. -/

def INDEX_NEW : Nat := 1
def INDEX_MODIFIED : Nat := 2
def INDEX_DELETED : Nat := 4
def INDEX_RENAMED : Nat := 8
def INDEX_TYPECHANGE : Nat := 16
def WT_NEW : Nat := 128
def WT_MODIFIED : Nat := 256
def WT_DELETED : Nat := 512
def WT_TYPECHANGE : Nat := 1024
def WT_RENAMED : Nat := 2048
def CONFLICTED : Nat := 32768

/-- Modelled from the spec: the current `src/statuses.rs` module (defining
`ConflictingStatus`) is not present under `src/`; per the spec's data model,
each side of a conflict is one of Unmerged/Added/Deleted. -/
inductive ConflictingStatus : Type
  | Unmerged
  | Added
  | Deleted
  deriving DecidableEq, Repr

/-- Modelled from the spec: the current `src/statuses.rs` module (defining
the `Status` tagged union) is not present under `src/`; per the spec's data
model, a status is either a non-conflicting flag word or a pair of
conflicting statuses, exactly as consumed by `src/changes/change_list.rs`
and `src/changes/status_priorities.rs`. -/
inductive Status : Type
  | NonConflicting (flags : Nat)
  | Conflicting (ours theirs : ConflictingStatus)
  deriving DecidableEq, Repr

/-- Modelled from the spec: `STATUSES_LENGTH` from the missing current
`src/statuses.rs` — there are five index-side and five worktree-side
states. -/
def STATUSES_LENGTH : Nat := 5

/-- Modelled from the spec: `INDEX_STATUSES` from the missing current
`src/statuses.rs` — the five single index-side states
(Modified/TypeChanged/Renamed/Deleted/New), in the order matching the
renderer's symbol table `["M", "T", "R", "D", "A"]` in
`src/rendering/status_symbols.rs`. -/
def INDEX_STATUSES : List Nat :=
  [INDEX_MODIFIED, INDEX_TYPECHANGE, INDEX_RENAMED, INDEX_DELETED, INDEX_NEW]

/-- Modelled from the spec: `WORKTREE_STATUSES` from the missing current
`src/statuses.rs` — the five single worktree-side states, in the same
order as `INDEX_STATUSES` (same symbol table). -/
def WORKTREE_STATUSES : List Nat :=
  [WT_MODIFIED, WT_TYPECHANGE, WT_RENAMED, WT_DELETED, WT_NEW]

/-- Modelled from the spec: `CONFLICTING_STATUSES` from the missing current
`src/statuses.rs` — the 7 valid `(ours, theirs)` combinations, listed in
the order of the classification table in
`ChangeList::populate_conflicting_changes`. -/
def CONFLICTING_STATUSES : List (ConflictingStatus × ConflictingStatus) :=
  [(.Unmerged, .Unmerged), (.Unmerged, .Deleted), (.Deleted, .Unmerged),
   (.Deleted, .Deleted), (.Added, .Added), (.Added, .Unmerged),
   (.Unmerged, .Added)]

/-- `git2::Status::intersects`: the two flag words share a bit. -/
def flagsIntersect (a b : Nat) : Bool := a &&& b ≠ 0

/-- `git2::Status::is_index_new`: the `INDEX_NEW` bit is set. -/
def flagsIsIndexNew (flags : Nat) : Bool := flagsIntersect flags INDEX_NEW

/-- `git2::Status::is_wt_deleted`: the `WT_DELETED` bit is set. -/
def flagsIsWtDeleted (flags : Nat) : Bool := flagsIntersect flags WT_DELETED

/-- `StatusPriorityMap::new` from `src/changes/status_priorities.rs`:
single index statuses get priorities `0..STATUSES_LENGTH`, each
index×worktree combination gets `(i + 1) * STATUSES_LENGTH + j`, single
worktree statuses get `worktree_base_priority + i`, and the conflicting
statuses get `conflicting_priority + i`. -/
def spmNew : List (Status × Nat) :=
  let worktree_base_priority := (1 + STATUSES_LENGTH) * STATUSES_LENGTH
  let conflicting_priority := worktree_base_priority + STATUSES_LENGTH
  let m := (List.range STATUSES_LENGTH).foldl (fun m i =>
    let index_status := INDEX_STATUSES.getD i 0
    let worktree_status := WORKTREE_STATUSES.getD i 0
    let m := alInsert m (Status.NonConflicting index_status) i
    let m := alInsert m (Status.NonConflicting worktree_status)
      (worktree_base_priority + i)
    (WORKTREE_STATUSES.enum).foldl (fun m jw =>
      let combined_status := jw.2 ||| index_status
      alInsert m (Status.NonConflicting combined_status)
        ((i + 1) * STATUSES_LENGTH + jw.1)) m) []
  (CONFLICTING_STATUSES.enum).foldl (fun m ip =>
    alInsert m (Status.Conflicting ip.2.1 ip.2.2) (conflicting_priority + ip.1)) m

/-- Rust `Option::cmp` (on `Option<&usize>`): `None` orders before
`Some`. -/
def optCmpN : Option Nat → Option Nat → Ordering
  | none, none => .eq
  | none, some _ => .lt
  | some _, none => .gt
  | some a, some b => cmpN a b

/-- `StatusPriorityMap::compare_statuses` from
`src/changes/status_priorities.rs`: look both statuses up in the map with
`HashMap::get` and compare the resulting `Option`s. -/
def compareStatuses (m : List (Status × Nat)) (s1 s2 : Status) : Ordering :=
  optCmpN (alGet m s1) (alGet m s2)

/-! ## Changes and the change ordering -/

/-- One working-tree entry (`Change` in `src/changes/change.rs`): raw path
bytes plus a status. -/
structure Change : Type where
  path : Path
  status : Status
  deriving DecidableEq, Repr

/-- The path → position map of `ChangeOrdering`
(`src/changes/change_ordering.rs`). -/
abbrev OrdMap := List (Path × Nat)

/-- The comparator of `ChangeOrdering::sort_changes_and_save_ordering`:
status priority first (via a freshly built `StatusPriorityMap`), and
`compare_paths` on ties. -/
def seedCmp (spm : List (Status × Nat)) (c1 c2 : Change) : Ordering :=
  match compareStatuses spm c1.status c2.status with
  | .eq => comparePaths c1.path c2.path
  | o => o

/-- `ChangeOrdering::sort_changes_and_save_ordering` from
`src/changes/change_ordering.rs`: sort the changes by
`(status priority, path)` and record each sorted index as the path's
position. -/
def seedChanges (m : OrdMap) (changes : List Change) : List Change × OrdMap :=
  let sorted := sortByOrd (seedCmp spmNew) changes
  (sorted, alInsertList m ((sorted.enum).map (fun ic => (ic.2.path, ic.1))))

/-- The comparator of `ChangeOrdering::sort_changes`: recorded positions
compare numerically, a path with a recorded position sorts before one
without, and two unrecorded paths compare via `compare_paths`.  (The
collection of new paths that Rust performs by side effect inside this
comparator is modelled separately by `collectNewPaths`.) -/
def resortCmp (m : OrdMap) (c1 c2 : Change) : Ordering :=
  match alGet m c1.path, alGet m c2.path with
  | some o1, some o2 => cmpN o1 o2
  | some _, none => .lt
  | none, some _ => .gt
  | none, none => comparePaths c1.path c2.path

/-- The paths with no recorded position, collected in first-occurrence
order, each at most once.  In Rust the collection happens by side effect
inside the `sort_by` comparator: a sort of zero or one elements never
invokes the comparator (so nothing is collected there), while for two or
more elements every element takes part in at least one comparison, so
exactly the unrecorded paths are collected.  The comparator invocation
order — hence the collection order — is unspecified by Rust; we model
first-occurrence order.  Every theorem that depends on the order of the
collected paths assumes their decodings are pairwise distinct, in which
case the subsequent sort by `compare_paths` makes the collection order
irrelevant. -/
def collectNewPaths (m : OrdMap) (changes : List Change) : List Path :=
  if changes.length ≤ 1 then []
  else changes.foldl (fun acc c =>
    if (alGet m c.path).isSome then acc
    else if c.path ∈ acc then acc
    else acc ++ [c.path]) []

/-- The collected new paths, sorted by `compare_paths`
(`new_paths.sort_by(...)` in `ChangeOrdering::sort_changes`). -/
def sortedNewPaths (m : OrdMap) (changes : List Change) : List Path :=
  sortByOrd comparePaths (collectNewPaths m changes)

/-- Result of `ChangeOrdering::sort_changes`: the sorted changes, the
extended map, and the count of newly discovered paths (the
`src/change_ordering/mod.rs` variant returns this count; the
`src/changes/change_ordering.rs` variant computes the same list and its
length internally). -/
structure ResortResult : Type where
  changes : List Change
  map : OrdMap
  newCount : Nat
  deriving DecidableEq, Repr

/-- `ChangeOrdering::sort_changes` from `src/changes/change_ordering.rs`:
stable-sort the changes by recorded position, sort the collected new paths
by `compare_paths`, and append them to the map with fresh positions
starting at the map's current size.  (Rust skips the map extension when no
new path was collected; inserting the empty list is the same thing.) -/
def sortChanges (m : OrdMap) (changes : List Change) : ResortResult :=
  let sorted := sortByOrd (resortCmp m) changes
  let new_paths := collectNewPaths m changes
  let sorted_new := sortByOrd comparePaths new_paths
  ⟨sorted,
   alInsertList m ((sorted_new.enum).map (fun ip => (ip.2, m.length + ip.1))),
   new_paths.length⟩

theorem sortChanges_changes (m : OrdMap) (changes : List Change) :
    (sortChanges m changes).changes = sortByOrd (resortCmp m) changes := rfl

theorem sortChanges_map (m : OrdMap) (changes : List Change) :
    (sortChanges m changes).map =
      alInsertList m (((sortedNewPaths m changes).enum).map
        (fun ip => (ip.2, m.length + ip.1))) := rfl

theorem sortChanges_newCount (m : OrdMap) (changes : List Change) :
    (sortChanges m changes).newCount = (collectNewPaths m changes).length := rfl

/-! ### Properties of the resort comparator -/

theorem resortCmp_swap (m : OrdMap) :
    ∀ c1 c2, resortCmp m c1 c2 = .gt → resortCmp m c2 c1 ≠ .gt := by
  intro c1 c2 h
  unfold resortCmp at h ⊢
  rcases h1 : alGet m c1.path with _ | o1 <;> rcases h2 : alGet m c2.path with _ | o2 <;>
    rw [h1, h2] at h <;> simp only [h1, h2] at *
  · -- both unrecorded
    intro hgt
    have := comparePaths_gt_iff_lt.mp h
    rw [this] at hgt
    simp at hgt
  · -- c1 unrecorded, c2 recorded
    simp
  · -- c1 recorded, c2 unrecorded: premise is .lt = .gt
    simp at h
  · -- both recorded
    have := cmpN_eq_gt.mp h
    intro hgt
    have := cmpN_eq_gt.mp hgt
    omega

theorem resortCmp_trans (m : OrdMap) :
    ∀ c1 c2 c3, resortCmp m c1 c2 ≠ .gt → resortCmp m c2 c3 ≠ .gt →
      resortCmp m c1 c3 ≠ .gt := by
  intro c1 c2 c3 h12 h23
  unfold resortCmp at h12 h23 ⊢
  rcases h1 : alGet m c1.path with _ | o1 <;>
    rcases h2 : alGet m c2.path with _ | o2 <;>
    rcases h3 : alGet m c3.path with _ | o3 <;>
    rw [h1, h2] at h12 <;> rw [h2, h3] at h23
  · -- none, none, none
    exact comparePaths_ne_gt_trans h12 h23
  · -- none, none, some
    exact absurd rfl h23
  · -- none, some, none
    exact absurd rfl h12
  · -- none, some, some
    exact absurd rfl h12
  · -- some, none, none
    exact fun hcontra => Ordering.noConfusion hcontra
  · -- some, none, some
    exact absurd rfl h23
  · -- some, some, none
    exact fun hcontra => Ordering.noConfusion hcontra
  · -- some, some, some
    intro hgt
    have g13 := cmpN_eq_gt.mp hgt
    have le12 : ¬o2 < o1 := fun hlt => h12 (cmpN_eq_gt.mpr hlt)
    have le23 : ¬o3 < o2 := fun hlt => h23 (cmpN_eq_gt.mpr hlt)
    omega

/-! ### Properties of the new-path collection -/

theorem mem_collect_foldl (m : OrdMap) (changes : List Change) (acc : List Path)
    (p : Path) :
    (p ∈ changes.foldl (fun acc c =>
        if (alGet m c.path).isSome then acc
        else if c.path ∈ acc then acc
        else acc ++ [c.path]) acc) ↔
      p ∈ acc ∨ (alGet m p = none ∧ ∃ c ∈ changes, c.path = p) := by
  induction changes generalizing acc with
  | nil => simp
  | cons c rest ih =>
    simp only [List.foldl_cons]
    by_cases hs : (alGet m c.path).isSome
    · rw [if_pos hs, ih]
      constructor
      · rintro (hacc | ⟨hnone, c', hc', rfl⟩)
        · exact Or.inl hacc
        · exact Or.inr ⟨hnone, c', List.mem_cons_of_mem _ hc', rfl⟩
      · rintro (hacc | ⟨hnone, c', hc', rfl⟩)
        · exact Or.inl hacc
        · rcases List.mem_cons.mp hc' with rfl | hc'
          · rw [hnone] at hs
            simp at hs
          · exact Or.inr ⟨hnone, c', hc', rfl⟩
    · rw [if_neg hs]
      have hnonec : alGet m c.path = none := Option.not_isSome_iff_eq_none.mp hs
      by_cases hmem : c.path ∈ acc
      · rw [if_pos hmem, ih]
        constructor
        · rintro (hacc | ⟨hnone, c', hc', rfl⟩)
          · exact Or.inl hacc
          · exact Or.inr ⟨hnone, c', List.mem_cons_of_mem _ hc', rfl⟩
        · rintro (hacc | ⟨hnone, c', hc', rfl⟩)
          · exact Or.inl hacc
          · rcases List.mem_cons.mp hc' with rfl | hc'
            · exact Or.inl hmem
            · exact Or.inr ⟨hnone, c', hc', rfl⟩
      · rw [if_neg hmem, ih]
        constructor
        · rintro (hacc | ⟨hnone, c', hc', rfl⟩)
          · rcases List.mem_append.mp hacc with hacc | hsing
            · exact Or.inl hacc
            · rcases List.mem_singleton.mp hsing with rfl
              exact Or.inr ⟨hnonec, c, List.mem_cons_self _ _, rfl⟩
          · exact Or.inr ⟨hnone, c', List.mem_cons_of_mem _ hc', rfl⟩
        · rintro (hacc | ⟨hnone, c', hc', rfl⟩)
          · exact Or.inl (List.mem_append.mpr (Or.inl hacc))
          · rcases List.mem_cons.mp hc' with rfl | hc'
            · exact Or.inl (List.mem_append.mpr (Or.inr (by simp)))
            · exact Or.inr ⟨hnone, c', hc', rfl⟩

theorem collect_foldl_nodup (m : OrdMap) (changes : List Change)
    (acc : List Path) (h : acc.Nodup) :
    (changes.foldl (fun acc c =>
        if (alGet m c.path).isSome then acc
        else if c.path ∈ acc then acc
        else acc ++ [c.path]) acc).Nodup := by
  induction changes generalizing acc with
  | nil => exact h
  | cons c rest ih =>
    simp only [List.foldl_cons]
    by_cases hs : (alGet m c.path).isSome
    · rw [if_pos hs]
      exact ih acc h
    · rw [if_neg hs]
      by_cases hmem : c.path ∈ acc
      · rw [if_pos hmem]
        exact ih acc h
      · rw [if_neg hmem]
        refine ih _ ?_
        rw [List.nodup_append]
        exact ⟨h, List.nodup_singleton _, by
          intro x hx hx'
          rcases List.mem_singleton.mp hx' with rfl
          exact hmem hx⟩

theorem mem_collectNewPaths {m : OrdMap} {changes : List Change} {p : Path} :
    p ∈ collectNewPaths m changes ↔
      2 ≤ changes.length ∧ alGet m p = none ∧ ∃ c ∈ changes, c.path = p := by
  unfold collectNewPaths
  by_cases hlen : changes.length ≤ 1
  · rw [if_pos hlen]
    simp only [List.not_mem_nil, false_iff]
    intro hcontra
    omega
  · rw [if_neg hlen]
    rw [mem_collect_foldl]
    simp only [List.not_mem_nil, false_or]
    constructor
    · intro h
      exact ⟨by omega, h⟩
    · intro h
      exact h.2

theorem collectNewPaths_nodup (m : OrdMap) (changes : List Change) :
    (collectNewPaths m changes).Nodup := by
  unfold collectNewPaths
  by_cases hlen : changes.length ≤ 1
  · rw [if_pos hlen]
    exact List.nodup_nil
  · rw [if_neg hlen]
    exact collect_foldl_nodup m changes [] List.nodup_nil

theorem collectNewPaths_eq_nil_of_all_recorded (m : OrdMap) (changes : List Change)
    (h : ∀ c ∈ changes, (alGet m c.path).isSome) :
    collectNewPaths m changes = [] := by
  rw [List.eq_nil_iff_forall_not_mem]
  intro p hp
  obtain ⟨_, hnone, c, hc, rfl⟩ := mem_collectNewPaths.mp hp
  have := h c hc
  rw [hnone] at this
  simp at this

/-! ### Further association-list lemmas for the map extension -/

theorem alGet_insertList_not_mem {κ β : Type} [DecidableEq κ]
    (m ps : List (κ × β)) (k : κ) (h : k ∉ alKeys ps) :
    alGet (alInsertList m ps) k = alGet m k := by
  induction ps generalizing m with
  | nil => rfl
  | cons p rest ih =>
    obtain ⟨k0, v0⟩ := p
    simp only [alKeys_cons, List.mem_cons] at h
    push_neg at h
    simp only [alInsertList, List.foldl_cons]
    rw [show (List.foldl (fun m p => alInsert m p.1 p.2) (alInsert m k0 v0) rest) =
      alInsertList (alInsert m k0 v0) rest from rfl]
    rw [ih (alInsert m k0 v0) h.2]
    exact alGet_insert_ne _ k0 k v0 (fun hc => h.1 hc.symm)

theorem alGet_insertList_mem {κ β : Type} [DecidableEq κ]
    (m ps : List (κ × β)) (k : κ) (v : β) (hmem : (k, v) ∈ ps)
    (hnodup : (alKeys ps).Nodup) :
    alGet (alInsertList m ps) k = some v := by
  induction ps generalizing m with
  | nil => simp at hmem
  | cons p rest ih =>
    obtain ⟨k0, v0⟩ := p
    simp only [alKeys_cons, List.nodup_cons] at hnodup
    simp only [alInsertList, List.foldl_cons]
    rw [show (List.foldl (fun m p => alInsert m p.1 p.2) (alInsert m k0 v0) rest) =
      alInsertList (alInsert m k0 v0) rest from rfl]
    rcases List.mem_cons.mp hmem with heq | hmem'
    · obtain ⟨rfl, rfl⟩ := Prod.mk.injEq .. ▸ heq
      rw [alGet_insertList_not_mem _ rest k hnodup.1]
      exact alGet_insert_self m k v
    · exact ih _ hmem' hnodup.2

theorem alInsertList_length {κ β : Type} [DecidableEq κ]
    (m ps : List (κ × β)) (hfresh : ∀ k ∈ alKeys ps, k ∉ alKeys m)
    (hnodup : (alKeys ps).Nodup) :
    (alInsertList m ps).length = m.length + ps.length := by
  rw [alInsertList_eq_append m ps hfresh hnodup, List.length_append]

theorem alGet_some_mem_values {κ β : Type} [DecidableEq κ]
    {m : List (κ × β)} {k : κ} {v : β} (h : alGet m k = some v) :
    v ∈ alValues m := by
  induction m with
  | nil => simp [alGet] at h
  | cons p rest ih =>
    obtain ⟨k0, v0⟩ := p
    by_cases h0 : k0 = k
    · rw [show alGet ((k0, v0) :: rest) k = if k0 = k then some v0 else alGet rest k
        from rfl, if_pos h0] at h
      obtain rfl := Option.some.injEq .. ▸ h
      simp_all
    · rw [show alGet ((k0, v0) :: rest) k = if k0 = k then some v0 else alGet rest k
        from rfl, if_neg h0] at h
      exact List.mem_cons_of_mem _ (ih h)

/-! ### The resort specification

These lemmas characterise `ChangeOrdering::sort_changes`; the claims about
resorting, idempotence and the position invariant are assembled from
them. -/

/-- The fresh bindings appended to the map by `sort_changes`. -/
def newPairs (m : OrdMap) (changes : List Change) : OrdMap :=
  ((sortedNewPaths m changes).enum).map (fun ip => (ip.2, m.length + ip.1))

theorem sortChanges_map_eq (m : OrdMap) (changes : List Change) :
    (sortChanges m changes).map = alInsertList m (newPairs m changes) := rfl

theorem newPairs_keys (m : OrdMap) (changes : List Change) :
    alKeys (newPairs m changes) = sortedNewPaths m changes := by
  unfold newPairs alKeys
  rw [List.map_map]
  have : ((fun p : Path × Nat => p.1) ∘ fun ip : Nat × Path => (ip.2, m.length + ip.1))
      = Prod.snd := rfl
  rw [this, List.enum_map_snd]

theorem newPairs_values (m : OrdMap) (changes : List Change) :
    alValues (newPairs m changes) =
      (List.range (sortedNewPaths m changes).length).map (fun i => m.length + i) := by
  unfold newPairs alValues
  rw [List.map_map]
  have : ((fun p : Path × Nat => p.2) ∘ fun ip : Nat × Path => (ip.2, m.length + ip.1))
      = (fun i => m.length + i) ∘ Prod.fst := rfl
  rw [this, ← List.map_map, List.enum_map_fst]

theorem mem_sortedNewPaths {m : OrdMap} {changes : List Change} {p : Path} :
    p ∈ sortedNewPaths m changes ↔ p ∈ collectNewPaths m changes :=
  (sortByOrd_perm comparePaths (collectNewPaths m changes)).mem_iff

theorem sortedNewPaths_nodup (m : OrdMap) (changes : List Change) :
    (sortedNewPaths m changes).Nodup :=
  (collectNewPaths_nodup m changes).perm
    (sortByOrd_perm comparePaths (collectNewPaths m changes)).symm

theorem sortedNewPaths_unrecorded {m : OrdMap} {changes : List Change} {p : Path}
    (hp : p ∈ sortedNewPaths m changes) : alGet m p = none :=
  (mem_collectNewPaths.mp (mem_sortedNewPaths.mp hp)).2.1

theorem newPairs_fresh (m : OrdMap) (changes : List Change) :
    ∀ k ∈ alKeys (newPairs m changes), k ∉ alKeys m := by
  intro k hk
  rw [newPairs_keys] at hk
  rw [← alGet_eq_none_iff]
  exact sortedNewPaths_unrecorded hk

theorem newPairs_keys_nodup (m : OrdMap) (changes : List Change) :
    (alKeys (newPairs m changes)).Nodup := by
  rw [newPairs_keys]
  exact sortedNewPaths_nodup m changes

/-- Positions already in the map are untouched by a resort. -/
theorem sortChanges_map_preserved (m : OrdMap) (changes : List Change) (p : Path)
    (hp : (alGet m p).isSome) :
    alGet (sortChanges m changes).map p = alGet m p := by
  rw [sortChanges_map_eq]
  apply alGet_insertList_not_mem
  rw [newPairs_keys]
  intro hmem
  rw [sortedNewPaths_unrecorded hmem] at hp
  simp at hp

/-- The i-th new path (in `compare_paths` order) receives the fresh
position `m.length + i`. -/
theorem sortChanges_map_fresh (m : OrdMap) (changes : List Change) (i : Nat)
    (h : i < (sortedNewPaths m changes).length) :
    alGet (sortChanges m changes).map ((sortedNewPaths m changes).get ⟨i, h⟩)
      = some (m.length + i) := by
  rw [sortChanges_map_eq]
  apply alGet_insertList_mem
  · refine List.mem_iff_getElem.mpr ⟨i, ?_, ?_⟩
    · simp only [newPairs, List.length_map, List.enum_length]
      exact h
    · simp only [newPairs, List.getElem_map, List.getElem_enum]
      rfl
  · exact newPairs_keys_nodup m changes

/-- The map grows by exactly the number of new paths. -/
theorem sortChanges_map_length (m : OrdMap) (changes : List Change) :
    (sortChanges m changes).map.length =
      m.length + (sortedNewPaths m changes).length := by
  rw [sortChanges_map_eq,
    alInsertList_length m _ (newPairs_fresh m changes) (newPairs_keys_nodup m changes)]
  simp [newPairs]

/-- Every collected new path has a recorded position after the resort. -/
theorem sortChanges_map_new_recorded (m : OrdMap) (changes : List Change)
    (p : Path) (hp : p ∈ collectNewPaths m changes) :
    ((alGet (sortChanges m changes).map p).isSome) := by
  obtain ⟨i, hi, rfl⟩ := List.mem_iff_getElem.mp (mem_sortedNewPaths.mpr hp)
  have := sortChanges_map_fresh m changes i hi
  rw [show (sortedNewPaths m changes).get ⟨i, hi⟩
    = (sortedNewPaths m changes)[i] from rfl] at this
  rw [this]
  rfl

theorem sortChanges_perm (m : OrdMap) (changes : List Change) :
    (sortChanges m changes).changes.Perm changes := by
  rw [sortChanges_changes]
  exact sortByOrd_perm _ changes

theorem sortChanges_pairwise (m : OrdMap) (changes : List Change) :
    (sortChanges m changes).changes.Pairwise (fun a b => resortCmp m a b ≠ .gt) := by
  rw [sortChanges_changes]
  exact sortByOrd_pairwise _ (resortCmp_swap m) (resortCmp_trans m) changes

/-- In the resorted list, a change whose path already had a position never
appears after one whose path did not: new paths land after known paths. -/
theorem sortChanges_known_before_new (m : OrdMap) (changes : List Change) :
    (sortChanges m changes).changes.Pairwise
      (fun a b => alGet m a.path = none → alGet m b.path = none) := by
  refine (sortChanges_pairwise m changes).imp ?_
  intro a b hab ha
  rcases hb : alGet m b.path with _ | vb
  · rfl
  · exfalso
    apply hab
    unfold resortCmp
    rw [ha, hb]

/-- Distinct-decoding hypothesis: among the changes whose paths have no
recorded position, no two distinct paths decode to the same string.
(`compare_paths` compares lossily decoded strings, so only under this
hypothesis is the relative order of new paths fully determined.) -/
def LossyDistinct (m : OrdMap) (changes : List Change) : Prop :=
  ∀ c1 ∈ changes, ∀ c2 ∈ changes, alGet m c1.path = none → alGet m c2.path = none →
    c1.path ≠ c2.path → comparePaths c1.path c2.path ≠ .eq

instance (m : OrdMap) (changes : List Change) : Decidable (LossyDistinct m changes) := by
  unfold LossyDistinct
  infer_instance

/-- In the resorted list, changes with unrecorded paths appear in strictly
ascending `compare_paths` order. -/
theorem sortChanges_new_strictly_sorted (m : OrdMap) (changes : List Change)
    (hnodup : (changes.map (·.path)).Nodup) (hlossy : LossyDistinct m changes) :
    (sortChanges m changes).changes.Pairwise
      (fun a b => alGet m a.path = none → alGet m b.path = none →
        comparePaths a.path b.path = .lt) := by
  have hperm := sortChanges_perm m changes
  have hnodup' : ((sortChanges m changes).changes.map (·.path)).Nodup :=
    hnodup.perm (hperm.map (·.path)).symm
  have hpaths : (sortChanges m changes).changes.Pairwise
      (fun a b => a.path ≠ b.path) := List.pairwise_map.mp hnodup'
  have hcomb := (sortChanges_pairwise m changes).and hpaths
  refine hcomb.imp_of_mem ?_
  intro a b hma hmb hab ha hb
  have hamem : a ∈ changes := hperm.mem_iff.mp hma
  have hbmem : b ∈ changes := hperm.mem_iff.mp hmb
  have hne : comparePaths a.path b.path ≠ .eq :=
    hlossy a hamem b hbmem ha hb hab.2
  have hng : resortCmp m a b ≠ .gt := hab.1
  unfold resortCmp at hng
  rw [ha, hb] at hng
  rcases hcp : comparePaths a.path b.path with _ | _ | _
  · rfl
  · exact absurd hcp hne
  · exact absurd hcp hng

/-- The sorted new paths are in strictly ascending `compare_paths` order
(under the distinct-decoding hypothesis). -/
theorem sortedNewPaths_strict (m : OrdMap) (changes : List Change)
    (hlossy : LossyDistinct m changes) :
    (sortedNewPaths m changes).Pairwise (fun p q => comparePaths p q = .lt) := by
  have hpw : (sortedNewPaths m changes).Pairwise
      (fun p q => comparePaths p q ≠ .gt) := by
    unfold sortedNewPaths
    refine sortByOrd_pairwise _ ?_ ?_ _
    · intro x y h
      rw [comparePaths_gt_iff_lt.mp h]
      simp
    · exact fun x y z => comparePaths_ne_gt_trans
  have hnodup := sortedNewPaths_nodup m changes
  refine (hpw.and hnodup).imp_of_mem ?_
  intro p q hp hq hpq
  obtain ⟨_, _, cp, hcp, rfl⟩ := mem_collectNewPaths.mp (mem_sortedNewPaths.mp hp)
  obtain ⟨_, _, cq, hcq, rfl⟩ := mem_collectNewPaths.mp (mem_sortedNewPaths.mp hq)
  have hne : comparePaths cp.path cq.path ≠ .eq :=
    hlossy cp hcp cq hcq (sortedNewPaths_unrecorded hp) (sortedNewPaths_unrecorded hq)
      hpq.2
  rcases hcmp : comparePaths cp.path cq.path with _ | _ | _
  · rfl
  · exact absurd hcmp hne
  · exact absurd hcmp hpq.1

/-! ### The position invariant -/

/-- The `ChangeOrdering` map invariant: keys are distinct and the recorded
positions are exactly `0 .. size-1` (each appearing once). -/
def goodMap (m : OrdMap) : Prop :=
  (alKeys m).Nodup ∧ (alValues m).Perm (List.range m.length)

instance (m : OrdMap) : Decidable (goodMap m) := by
  unfold goodMap
  infer_instance

theorem goodMap_nil : goodMap [] := ⟨List.nodup_nil, by simp⟩

theorem goodMap_value_lt {m : OrdMap} (hg : goodMap m) {k : Path} {v : Nat}
    (h : alGet m k = some v) : v < m.length := by
  have hv := alGet_some_mem_values h
  have := hg.2.mem_iff.mp hv
  simpa using this

/-- A resort preserves the position invariant: the fresh positions
`m.length, m.length+1, …` extend the range `0 .. m.length-1` without
collisions. -/
theorem sortChanges_goodMap (m : OrdMap) (changes : List Change)
    (hg : goodMap m) : goodMap (sortChanges m changes).map := by
  rw [sortChanges_map_eq,
    alInsertList_eq_append m _ (newPairs_fresh m changes) (newPairs_keys_nodup m changes)]
  constructor
  · rw [alKeys_append, List.nodup_append]
    refine ⟨hg.1, newPairs_keys_nodup m changes, ?_⟩
    intro k hk hk'
    exact (newPairs_fresh m changes) k hk' hk
  · rw [alValues_append, List.length_append]
    have hlen : (newPairs m changes).length = (sortedNewPaths m changes).length := by
      simp [newPairs]
    rw [hlen, newPairs_values, List.range_add]
    exact hg.2.append (List.Perm.refl _)

/-- A resort whose input collects no new paths and is already sorted by
recorded position is the identity: same order, same map, zero new paths. -/
theorem sortChanges_id (m : OrdMap) (l : List Change)
    (hcol : collectNewPaths m l = [])
    (hsorted : l.Pairwise (fun a b => resortCmp m a b ≠ .gt)) :
    (sortChanges m l).changes = l ∧ (sortChanges m l).map = m ∧
      (sortChanges m l).newCount = 0 := by
  refine ⟨?_, ?_, ?_⟩
  · rw [sortChanges_changes]
    exact sortByOrd_eq_self _ hsorted
  · rw [sortChanges_map_eq]
    unfold newPairs sortedNewPaths
    rw [hcol]
    rfl
  · rw [sortChanges_newCount, hcol]
    rfl

/-! ### The seed specification -/

theorem seedChanges_fst (m : OrdMap) (changes : List Change) :
    (seedChanges m changes).1 = sortByOrd (seedCmp spmNew) changes := rfl

theorem seedChanges_perm (m : OrdMap) (changes : List Change) :
    (seedChanges m changes).1.Perm changes := sortByOrd_perm _ changes

/-- The bindings recorded by a seed from the empty map. -/
theorem seedChanges_nil_snd (changes : List Change)
    (hnodup : (changes.map (·.path)).Nodup) :
    (seedChanges [] changes).2 =
      (((seedChanges [] changes).1.enum).map (fun ic => (ic.2.path, ic.1))) := by
  have hkeys : alKeys (((seedChanges [] changes).1.enum).map
      (fun ic => (ic.2.path, ic.1))) = (seedChanges [] changes).1.map (·.path) := by
    unfold alKeys
    rw [List.map_map]
    have : ((fun p : Path × Nat => p.1) ∘ fun ic : Nat × Change => (ic.2.path, ic.1))
        = (fun c : Change => c.path) ∘ Prod.snd := rfl
    rw [this, ← List.map_map, List.enum_map_snd]
  have hkn : (alKeys (((seedChanges [] changes).1.enum).map
      (fun ic => (ic.2.path, ic.1)))).Nodup := by
    rw [hkeys]
    exact hnodup.perm ((seedChanges_perm [] changes).map (·.path)).symm
  show alInsertList []
      (((seedChanges [] changes).1.enum).map (fun ic => (ic.2.path, ic.1))) = _
  rw [alInsertList_eq_append [] _ (by intro k _; simp) hkn]
  rfl

/-- After a seed from the empty map, each sorted change's path is recorded
at its index. -/
theorem seedChanges_get (changes : List Change)
    (hnodup : (changes.map (·.path)).Nodup) (i : Nat)
    (h : i < (seedChanges [] changes).1.length) :
    alGet (seedChanges [] changes).2 ((seedChanges [] changes).1.get ⟨i, h⟩).path
      = some i := by
  rw [seedChanges_nil_snd changes hnodup]
  have hkeys : alKeys (((seedChanges [] changes).1.enum).map
      (fun ic => (ic.2.path, ic.1))) = (seedChanges [] changes).1.map (·.path) := by
    unfold alKeys
    rw [List.map_map]
    have : ((fun p : Path × Nat => p.1) ∘ fun ic : Nat × Change => (ic.2.path, ic.1))
        = (fun c : Change => c.path) ∘ Prod.snd := rfl
    rw [this, ← List.map_map, List.enum_map_snd]
  have hkn : (alKeys (((seedChanges [] changes).1.enum).map
      (fun ic => (ic.2.path, ic.1)))).Nodup := by
    rw [hkeys]
    exact hnodup.perm ((seedChanges_perm [] changes).map (·.path)).symm
  have hmem : (((seedChanges [] changes).1.get ⟨i, h⟩).path, i) ∈
      (((seedChanges [] changes).1.enum).map (fun ic => (ic.2.path, ic.1))) := by
    refine List.mem_iff_getElem.mpr ⟨i, ?_, ?_⟩
    · simp only [List.length_map, List.enum_length]
      exact h
    · simp only [List.getElem_map, List.getElem_enum]
      rfl
  -- the seed map is the binding list itself, so lookup finds the binding
  have := alGet_insertList_mem [] _ _ i hmem hkn
  rw [show alInsertList [] (((seedChanges [] changes).1.enum).map
      (fun ic => (ic.2.path, ic.1))) =
    (((seedChanges [] changes).1.enum).map (fun ic => (ic.2.path, ic.1))) from by
      rw [alInsertList_eq_append [] _ (by intro k _; simp) hkn]; rfl] at this
  exact this

/-- The seed map satisfies the position invariant: positions are exactly
`0 .. n-1`. -/
theorem seedChanges_goodMap (changes : List Change)
    (hnodup : (changes.map (·.path)).Nodup) :
    goodMap (seedChanges [] changes).2 := by
  rw [seedChanges_nil_snd changes hnodup]
  constructor
  · unfold alKeys
    rw [List.map_map]
    have : ((fun p : Path × Nat => p.1) ∘ fun ic : Nat × Change => (ic.2.path, ic.1))
        = (fun c : Change => c.path) ∘ Prod.snd := rfl
    rw [this, ← List.map_map, List.enum_map_snd]
    exact hnodup.perm ((seedChanges_perm [] changes).map (·.path)).symm
  · unfold alValues
    rw [List.map_map]
    have : ((fun p : Path × Nat => p.2) ∘ fun ic : Nat × Change => (ic.2.path, ic.1))
        = Prod.fst := rfl
    rw [this, List.enum_map_fst]
    simp [List.enum_length]

/-! ### Idempotence -/

/-- Seeding and then resorting the unchanged change set is the identity:
same order, same map, zero new paths. -/
theorem seed_then_resort_id (changes : List Change)
    (hnodup : (changes.map (·.path)).Nodup) :
    (sortChanges (seedChanges [] changes).2 (seedChanges [] changes).1).changes
        = (seedChanges [] changes).1 ∧
      (sortChanges (seedChanges [] changes).2 (seedChanges [] changes).1).map
        = (seedChanges [] changes).2 ∧
      (sortChanges (seedChanges [] changes).2 (seedChanges [] changes).1).newCount
        = 0 := by
  apply sortChanges_id
  · apply collectNewPaths_eq_nil_of_all_recorded
    intro c hc
    obtain ⟨i, hi, rfl⟩ := List.mem_iff_getElem.mp hc
    have hgi := seedChanges_get changes hnodup i hi
    rw [show (seedChanges [] changes).1[i]
        = (seedChanges [] changes).1.get ⟨i, hi⟩ from rfl, hgi]
    rfl
  · rw [List.pairwise_iff_getElem]
    intro i j hi hj hij
    have hgi := seedChanges_get changes hnodup i hi
    have hgj := seedChanges_get changes hnodup j hj
    unfold resortCmp
    rw [show (seedChanges [] changes).1[i]
        = (seedChanges [] changes).1.get ⟨i, hi⟩ from rfl,
      show (seedChanges [] changes).1[j]
        = (seedChanges [] changes).1.get ⟨j, hj⟩ from rfl, hgi, hgj]
    intro hcontra
    have := cmpN_eq_gt.mp hcontra
    omega

/-- Resorting twice in a row with an unchanged change set is idempotent:
the second resort returns the same order, the same map and zero new paths.
Requires the position invariant on the starting map (which seeding
establishes and every resort preserves) and pairwise-distinct decodings
among the paths. -/
theorem resort_twice_id (m : OrdMap) (changes : List Change)
    (hg : goodMap m) (hnodup : (changes.map (·.path)).Nodup)
    (hlossy : LossyDistinct m changes) :
    (sortChanges (sortChanges m changes).map (sortChanges m changes).changes).changes
        = (sortChanges m changes).changes ∧
      (sortChanges (sortChanges m changes).map (sortChanges m changes).changes).map
        = (sortChanges m changes).map ∧
      (sortChanges (sortChanges m changes).map (sortChanges m changes).changes).newCount
        = 0 := by
  by_cases hlen : changes.length ≤ 1
  · -- a sort of at most one change collects nothing and is trivially sorted
    have hlen' : (sortChanges m changes).changes.length ≤ 1 := by
      rw [(sortChanges_perm m changes).length_eq]
      exact hlen
    apply sortChanges_id
    · unfold collectNewPaths
      rw [if_pos hlen']
    · rw [List.pairwise_iff_getElem]
      intro i j hi hj hij
      omega
  · push_neg at hlen
    have hall : ∀ c ∈ (sortChanges m changes).changes,
        (alGet (sortChanges m changes).map c.path).isSome := by
      intro c hc
      rcases hoc : alGet m c.path with _ | v
      · exact sortChanges_map_new_recorded m changes c.path
          (mem_collectNewPaths.mpr ⟨by omega, hoc,
            c, (sortChanges_perm m changes).mem_iff.mp hc, rfl⟩)
      · rw [sortChanges_map_preserved m changes c.path (by rw [hoc]; rfl), hoc]
        rfl
    apply sortChanges_id
    · exact collectNewPaths_eq_nil_of_all_recorded _ _ hall
    · have hkbn := sortChanges_known_before_new m changes
      have hnss := sortChanges_new_strictly_sorted m changes hnodup hlossy
      have hpw := sortChanges_pairwise m changes
      have hstrict := sortedNewPaths_strict m changes hlossy
      refine ((hpw.and hkbn).and hnss).imp_of_mem ?_
      intro a b hma hmb hab
      obtain ⟨⟨hcmp, hknb⟩, hlt⟩ := hab
      have hamem : a ∈ changes := (sortChanges_perm m changes).mem_iff.mp hma
      have hbmem : b ∈ changes := (sortChanges_perm m changes).mem_iff.mp hmb
      unfold resortCmp
      rcases ha : alGet m a.path with _ | va
      · -- a's path is new, so b's is too
        have hb : alGet m b.path = none := hknb ha
        obtain ⟨ka, hka, hae⟩ := List.mem_iff_getElem.mp
          (mem_sortedNewPaths.mpr
            (mem_collectNewPaths.mpr ⟨by omega, ha, a, hamem, rfl⟩))
        obtain ⟨kb, hkb, hbe⟩ := List.mem_iff_getElem.mp
          (mem_sortedNewPaths.mpr
            (mem_collectNewPaths.mpr ⟨by omega, hb, b, hbmem, rfl⟩))
        have hga : alGet (sortChanges m changes).map a.path = some (m.length + ka) := by
          rw [← hae]
          exact sortChanges_map_fresh m changes ka hka
        have hgb : alGet (sortChanges m changes).map b.path = some (m.length + kb) := by
          rw [← hbe]
          exact sortChanges_map_fresh m changes kb hkb
        rw [hga, hgb]
        have hltab : comparePaths a.path b.path = .lt := hlt ha hb
        have hkakb : ka < kb := by
          rcases Nat.lt_trichotomy ka kb with h | h | h
          · exact h
          · exfalso
            subst h
            have : a.path = b.path := hae.symm.trans hbe
            rw [this] at hltab
            rw [comparePaths_refl] at hltab
            exact Ordering.noConfusion hltab
          · exfalso
            have hba := (List.pairwise_iff_getElem.mp hstrict) kb ka hkb hka h
            rw [hbe, hae] at hba
            have := comparePaths_lt_trans hltab hba
            rw [comparePaths_refl] at this
            exact Ordering.noConfusion this
        intro hcontra
        have := cmpN_eq_gt.mp hcontra
        omega
      · -- a's path is known
        have hva : va < m.length := goodMap_value_lt hg ha
        have hga : alGet (sortChanges m changes).map a.path = some va := by
          rw [sortChanges_map_preserved m changes a.path (by rw [ha]; rfl), ha]
        rcases hb : alGet m b.path with _ | vb
        · -- b's path is new: its fresh position exceeds every old one
          obtain ⟨kb, hkb, hbe⟩ := List.mem_iff_getElem.mp
            (mem_sortedNewPaths.mpr
              (mem_collectNewPaths.mpr ⟨by omega, hb, b, hbmem, rfl⟩))
          have hgb : alGet (sortChanges m changes).map b.path = some (m.length + kb) := by
            rw [← hbe]
            exact sortChanges_map_fresh m changes kb hkb
          rw [hga, hgb]
          intro hcontra
          have := cmpN_eq_gt.mp hcontra
          omega
        · -- both known: the comparison is unchanged from the first resort
          have hgb : alGet (sortChanges m changes).map b.path = some vb := by
            rw [sortChanges_map_preserved m changes b.path (by rw [hb]; rfl), hb]
          rw [hga, hgb]
          have : resortCmp m a b = cmpN va vb := by
            unfold resortCmp
            rw [ha, hb]
          rw [this] at hcmp
          exact hcmp

/-! ## Errors

The repository reports failures as `anyhow` errors distinguished by their
message (most carrying the offending path).  We model them as a closed
error type; each constructor corresponds to one `bail!`/`context` message
in the modelled code. -/

inductive GitError : Type
  /-- "Failed to find path for merge conflict in Git index" -/
  | conflictPathMissing
  /-- "Expected to find conflicting change path for merge conflict in
  '{path}', but found nothing" -/
  | conflictEntryNotMatched (path : Path)
  /-- "Invalid index merge conflict entry" -/
  | invalidConflictEntry
  /-- "Failed to find Git index entries for all conflicting paths in merge
  conflict" -/
  | leftoverConflictPaths
  /-- "Failed to get tree entry for '{path}' from HEAD tree in repository" -/
  | treeEntryNotFound (path : Path)
  deriving DecidableEq, Repr

/-! ## Index entries, conflicts, classification -/

/-- `git2::IndexEntry` — the fields set by `new_index_entry` in
`src/changes/change.rs`.  `id` models the `Oid`, `ctime`/`mtime` are
(seconds, nanoseconds) pairs. -/
structure IndexEntry : Type where
  id : Nat
  mode : Nat
  path : Path
  ctime : Nat × Nat
  mtime : Nat × Nat
  dev : Nat
  ino : Nat
  uid : Nat
  gid : Nat
  file_size : Nat
  flags : Nat
  flags_extended : Nat
  deriving DecidableEq, Repr

/-- `new_index_entry` from `src/changes/change.rs`: an index entry with the
given id, mode and path and every timestamp/device/inode/size/flag field
zeroed. -/
def new_index_entry (id : Nat) (mode : Nat) (path : Path) : IndexEntry :=
  { id := id, mode := mode, path := path, ctime := (0, 0), mtime := (0, 0),
    dev := 0, ino := 0, uid := 0, gid := 0, file_size := 0, flags := 0,
    flags_extended := 0 }

/-- `git2::IndexConflict`: up to three versions (ancestor/our/their) of a
path under an unresolved merge. -/
structure IndexConflict : Type where
  ancestor : Option IndexEntry
  our : Option IndexEntry
  their : Option IndexEntry
  deriving DecidableEq, Repr

/-- The conflict-classification match in
`ChangeList::populate_conflicting_changes`
(`src/changes/change_list.rs`): maps the presence pattern of the
(ancestor, our, their) entries to the `(ours, theirs)` conflicting status
pair, rejecting the all-absent pattern. -/
def classifyConflict (ancestor our their : Option IndexEntry) :
    Except GitError (ConflictingStatus × ConflictingStatus) :=
  match ancestor, our, their with
  | some _, some _, some _ => .ok (.Unmerged, .Unmerged)
  | some _, some _, none => .ok (.Unmerged, .Deleted)
  | some _, none, some _ => .ok (.Deleted, .Unmerged)
  | some _, none, none => .ok (.Deleted, .Deleted)
  | none, some _, some _ => .ok (.Added, .Added)
  | none, some _, none => .ok (.Added, .Unmerged)
  | none, none, some _ => .ok (.Unmerged, .Added)
  | none, none, none => .error .invalidConflictEntry

/-- The if-let chain picking the conflict's path: ancestor's, else our's,
else their's, else an error. -/
def conflictPath (c : IndexConflict) : Except GitError Path :=
  match c.ancestor with
  | some e => .ok e.path
  | none =>
    match c.our with
    | some e => .ok e.path
    | none =>
      match c.their with
      | some e => .ok e.path
      | none => .error .conflictPathMissing

/-- `ChangeList::populate_conflicting_changes`
(`src/changes/change_list.rs`): for each index conflict, find its path,
locate and remove the matching entry of `conflicting_change_paths` (the
paths the status scan flagged as conflicted) — erroring when there is
none — classify, and emit a conflicting `Change`; after the loop, left-over
conflicted scan paths are an error.  (Rust takes the removed scan path as
the change's path; the find predicate is byte equality, so it equals the
conflict's path.) -/
def populateConflicting : List IndexConflict → List Path →
    Except GitError (List Change)
  | [], paths =>
    if paths.isEmpty then .ok [] else .error .leftoverConflictPaths
  | conflict :: rest, paths =>
    match conflictPath conflict with
    | .error e => .error e
    | .ok cpath =>
      match paths.findIdx? (fun p => decide (p = cpath)) with
      | none => .error (.conflictEntryNotMatched cpath)
      | some i =>
        match classifyConflict conflict.ancestor conflict.our conflict.their with
        | .error e => .error e
        | .ok (ours, theirs) =>
          match populateConflicting rest (paths.eraseIdx i) with
          | .error e => .error e
          | .ok changes =>
            .ok (⟨cpath, .Conflicting ours theirs⟩ :: changes)

/-! ## Trees, the index, staging state -/

/-- A tree entry as used by `Change::unstage`: object id and filemode. -/
structure TreeEntry : Type where
  id : Nat
  filemode : Nat
  deriving DecidableEq, Repr

/-- The HEAD tree, as a path → entry map (`Tree::get_path`). -/
abbrev Tree := List (Path × TreeEntry)

/-- The in-memory Git index: a list of stage-0 entries. -/
abbrev GitIndex := List IndexEntry

/-- `Index::remove_path`: drop the entry at the given path.  (In Rust this
returns a `Result`; for the unstage path it is only invoked on paths the
status scan reported as present in the index.) -/
def indexRemovePath (idx : GitIndex) (p : Path) : GitIndex :=
  idx.filter (fun e => decide (e.path ≠ p))

/-- `Index::add`: insert the entry, replacing any existing entry at the
same path. -/
def indexAdd (idx : GitIndex) (e : IndexEntry) : GitIndex :=
  match idx with
  | [] => [e]
  | e' :: rest => if e'.path = e.path then e :: rest else e' :: indexAdd rest e

/-- Look up the index entry at a path. -/
def indexFind (idx : GitIndex) (p : Path) : Option IndexEntry :=
  idx.find? (fun e => decide (e.path = p))

/-- The guard `matches!(self.status, Status::NonConflicting(status) if
status.is_index_new())` in `Change::unstage`. -/
def statusIsIndexNew (s : Status) : Bool :=
  match s with
  | .NonConflicting flags => flagsIsIndexNew flags
  | .Conflicting _ _ => false

/-- `Change::unstage` from `src/changes/change.rs`: an index-new path is
removed from the index entirely; any other path's (id, filemode) is looked
up in the HEAD tree (an error if absent) and re-inserted as a fresh index
entry with zeroed metadata. -/
def unstage (c : Change) (idx : GitIndex) (tree : Tree) :
    Except GitError GitIndex :=
  if statusIsIndexNew c.status then
    .ok (indexRemovePath idx c.path)
  else
    match alGet tree c.path with
    | none => .error (.treeEntryNotFound c.path)
    | some te => .ok (indexAdd idx (new_index_entry te.id te.filemode c.path))

/-- The in-memory index paired with its on-disk copy; `Index::write`
replaces the on-disk copy with the in-memory one. -/
structure GitState : Type where
  mem : GitIndex
  disk : GitIndex
  deriving DecidableEq, Repr

/-- The `for change in &self.changes { change.unstage(...)? }` loop of
`ChangeList::unstage_all_changes`: stops at the first failing unstage,
returning the index as mutated by the successful prefix. -/
def unstageAllLoop : List Change → Tree → GitIndex →
    GitIndex × Except GitError Unit
  | [], _, idx => (idx, .ok ())
  | c :: rest, tree, idx =>
    match unstage c idx tree with
    | .error e => (idx, .error e)
    | .ok idx' => unstageAllLoop rest tree idx'

/-- `ChangeList::unstage_all_changes` from `src/changes/change_list.rs`:
unstage every change in order; only on success is `index.write()` reached,
which persists the in-memory index to disk.  On failure the error
propagates before the write. -/
def unstageAllChanges (changes : List Change) (tree : Tree) (st : GitState) :
    GitState × Except GitError Unit :=
  match unstageAllLoop changes tree st.mem with
  | (mem', .ok ()) => ({ mem := mem', disk := mem' }, .ok ())
  | (mem', .error e) => ({ mem := mem', disk := st.disk }, .error e)

/-- `ChangeList::stage_all_changes` from `src/changes/change_list.rs`: one
bulk `index.add_all(["*"], ...)` call — the per-entry work happens inside
the external library, so its outcome is a parameter here — then
`index.write()` on success. -/
def stageAllChanges (addAllOutcome : Except GitError GitIndex) (st : GitState) :
    GitState × Except GitError Unit :=
  match addAllOutcome with
  | .error e => (st, .error e)
  | .ok mem' => ({ mem := mem', disk := mem' }, .ok ())

/-- Straight-line unstaging of a list of changes (used to state what the
successful prefix of `unstage_all` did to the in-memory index). -/
def unstageList : List Change → Tree → GitIndex → Except GitError GitIndex
  | [], _, idx => .ok idx
  | c :: rest, tree, idx =>
    match unstage c idx tree with
    | .error e => .error e
    | .ok idx' => unstageList rest tree idx'

/-! ## Default selection -/

/-- `Change.status.intersects` any worktree-side state (the check in
`ChangeList::select_default_change`). -/
def hasWorktreeStatus (c : Change) : Bool :=
  match c.status with
  | .NonConflicting flags => WORKTREE_STATUSES.any (fun ws => flagsIntersect flags ws)
  | .Conflicting _ _ => false

def isConflicting (c : Change) : Bool :=
  match c.status with
  | .Conflicting _ _ => true
  | .NonConflicting _ => false

/-- The loop of `ChangeList::select_default_change`
(`src/changes/change_list.rs`): walk the changes with index `i`, returning
immediately at the first conflicting entry; otherwise remember the first
entry intersecting a worktree status; after the loop, use that if any,
else leave the cursor untouched. -/
def selectDefaultLoop (cur : Nat) : List Change → Nat → Option Nat → Nat
  | [], _, none => cur
  | [], _, some w => w
  | c :: rest, i, fw =>
    match c.status with
    | .Conflicting _ _ => i
    | .NonConflicting flags =>
      selectDefaultLoop cur rest (i + 1)
        (if fw = none ∧ WORKTREE_STATUSES.any (fun ws => flagsIntersect flags ws)
          then some i else fw)

/-- `ChangeList::select_default_change`: empty list returns early (cursor
untouched); otherwise run the loop from index 0 with no worktree candidate
recorded. -/
def selectDefaultChange (changes : List Change) (cur : Nat) : Nat :=
  if changes.isEmpty then cur
  else selectDefaultLoop cur changes 0 none

/-- Index of the first element satisfying a predicate. -/
def firstIdxWhere (p : Change → Bool) : List Change → Option Nat
  | [] => none
  | c :: rest => if p c then some 0 else (firstIdxWhere p rest).map (· + 1)

/-! ### Helper lemmas for the conflict matching -/

theorem perm_getElem_cons_eraseIdx {α : Type} :
    ∀ (l : List α) (i : Nat) (h : i < l.length), l.Perm (l[i] :: l.eraseIdx i) := by
  intro l
  induction l with
  | nil => intro i h; simp at h
  | cons a t ih =>
    intro i h
    cases i with
    | zero => simp [List.eraseIdx]
    | succ i =>
      simp only [List.length_cons, Nat.succ_lt_succ_iff] at h
      have step := (ih i h).cons a
      have swap : (a :: t[i] :: t.eraseIdx i).Perm (t[i] :: a :: t.eraseIdx i) :=
        List.Perm.swap _ _ _
      simpa using step.trans swap

theorem populateConflicting_ok_spec :
    ∀ (conflicts : List IndexConflict) (paths : List Path) (changes : List Change),
      populateConflicting conflicts paths = .ok changes →
      changes.length = conflicts.length ∧ (changes.map (·.path)).Perm paths := by
  intro conflicts
  induction conflicts with
  | nil =>
    intro paths changes h
    unfold populateConflicting at h
    by_cases hp : paths.isEmpty
    · rw [if_pos hp] at h
      have hpaths : paths = [] := List.isEmpty_iff.mp hp
      subst hpaths
      have hch : changes = [] := (Except.ok.inj h).symm
      subst hch
      simp
    · rw [if_neg hp] at h
      exact absurd h (by simp)
  | cons conflict rest ih =>
    intro paths changes h
    unfold populateConflicting at h
    split at h
    · exact absurd h (by simp)
    next cpath hcp =>
      split at h
      · exact absurd h (by simp)
      next i hfi =>
        split at h
        · exact absurd h (by simp)
        next ours theirs hcl =>
          split at h
          · exact absurd h (by simp)
          next cs hrec =>
            have hch : changes = ⟨cpath, .Conflicting ours theirs⟩ :: cs :=
              (Except.ok.inj h).symm
            subst hch
            obtain ⟨hlen, hperm⟩ := ih _ _ hrec
            obtain ⟨hi, hidx⟩ := List.findIdx?_eq_some_iff_findIdx_eq.mp hfi
            have hpi : paths[i] = cpath := by
              have hget := @List.findIdx_getElem Path
                (fun p => decide (p = cpath)) paths (hidx ▸ hi)
              have : decide (paths[i] = cpath) = true := by
                rw [show paths[i]
                    = paths[List.findIdx (fun p => decide (p = cpath)) paths]
                  from by congr 1; exact hidx.symm]
                exact hget
              exact of_decide_eq_true this
            refine ⟨by simp [hlen], ?_⟩
            simp only [List.map_cons]
            have hperm2 := perm_getElem_cons_eraseIdx paths i hi
            rw [hpi] at hperm2
            exact (hperm.cons cpath).trans hperm2.symm

/-! ### Helper lemmas for unstaging -/

theorem indexFind_add_self (idx : GitIndex) (e : IndexEntry) :
    indexFind (indexAdd idx e) e.path = some e := by
  induction idx with
  | nil => simp [indexAdd, indexFind, List.find?]
  | cons e' rest ih =>
    by_cases h : e'.path = e.path
    · simp [indexAdd, h, indexFind, List.find?]
    · simp only [indexAdd, if_neg h]
      simp only [indexFind, List.find?] at ih ⊢
      rw [show (decide (e'.path = e.path)) = false from decide_eq_false h]
      exact ih

theorem indexFind_remove_self (idx : GitIndex) (p : Path) :
    indexFind (indexRemovePath idx p) p = none := by
  induction idx with
  | nil => simp [indexRemovePath, indexFind]
  | cons e rest ih =>
    by_cases h : e.path = p
    · simp only [indexRemovePath, List.filter_cons]
      rw [show (decide (e.path ≠ p)) = false from by simp [h]]
      exact ih
    · simp only [indexRemovePath, List.filter_cons]
      rw [show (decide (e.path ≠ p)) = true from by simp [h]]
      simp only [indexFind, List.find?]
      rw [show (decide (e.path = p)) = false from decide_eq_false h]
      exact ih

/-! ### Helper lemmas for unstage-all -/

theorem unstageAllLoop_ok :
    ∀ (changes : List Change) (tree : Tree) (idx idx' : GitIndex),
      unstageAllLoop changes tree idx = (idx', .ok ()) →
      unstageList changes tree idx = .ok idx' := by
  intro changes
  induction changes with
  | nil =>
    intro tree idx idx' h
    simp only [unstageAllLoop] at h
    obtain ⟨rfl, -⟩ := Prod.mk.injEq .. ▸ h
    rfl
  | cons c rest ih =>
    intro tree idx idx' h
    simp only [unstageAllLoop] at h
    rcases hu : unstage c idx tree with e | idx1 <;> rw [hu] at h
    · exact absurd (Prod.mk.injEq .. ▸ h).2 (by simp)
    · simp only [unstageList, hu]
      exact ih tree idx1 idx' h

theorem unstageAllLoop_error :
    ∀ (changes : List Change) (tree : Tree) (idx idx' : GitIndex) (e : GitError),
      unstageAllLoop changes tree idx = (idx', .error e) →
      ∃ k, ∃ hk : k < changes.length,
        unstageList (changes.take k) tree idx = .ok idx' ∧
        unstage (changes.get ⟨k, hk⟩) idx' tree = .error e := by
  intro changes
  induction changes with
  | nil =>
    intro tree idx idx' e h
    simp only [unstageAllLoop] at h
    exact absurd (Prod.mk.injEq .. ▸ h).2 (by simp)
  | cons c rest ih =>
    intro tree idx idx' e h
    simp only [unstageAllLoop] at h
    rcases hu : unstage c idx tree with e0 | idx1 <;> rw [hu] at h
    · obtain ⟨h1, h2⟩ := Prod.mk.injEq .. ▸ h
      obtain rfl : idx = idx' := h1
      obtain rfl : e0 = e := Except.error.inj h2
      exact ⟨0, by simp, by simp [unstageList], hu⟩
    · obtain ⟨k, hk, h1, h2⟩ := ih tree idx1 idx' e h
      refine ⟨k + 1, by simpa using hk, ?_, h2⟩
      simp only [List.take_succ_cons, unstageList, hu]
      exact h1

theorem unstageAllChanges_error_spec (changes : List Change) (tree : Tree)
    (st st' : GitState) (e : GitError)
    (h : unstageAllChanges changes tree st = (st', .error e)) :
    st'.disk = st.disk ∧ ∃ k, ∃ hk : k < changes.length,
      unstageList (changes.take k) tree st.mem = .ok st'.mem ∧
      unstage (changes.get ⟨k, hk⟩) st'.mem tree = .error e := by
  unfold unstageAllChanges at h
  rcases hl : unstageAllLoop changes tree st.mem with ⟨mem', r⟩
  rw [hl] at h
  cases r with
  | ok u =>
    cases u
    exact absurd (Prod.mk.injEq .. ▸ h).2 (by simp)
  | error e0 =>
    obtain ⟨h1, h2⟩ := Prod.mk.injEq .. ▸ h
    have hee : e0 = e := Except.error.inj h2
    obtain rfl : ({ mem := mem', disk := st.disk } : GitState) = st' := h1
    refine ⟨rfl, ?_⟩
    rw [← hee]
    exact unstageAllLoop_error changes tree st.mem mem' e0 hl

theorem unstageAllChanges_ok_spec (changes : List Change) (tree : Tree)
    (st st' : GitState)
    (h : unstageAllChanges changes tree st = (st', .ok ())) :
    st'.disk = st'.mem ∧ unstageList changes tree st.mem = .ok st'.mem := by
  unfold unstageAllChanges at h
  rcases hl : unstageAllLoop changes tree st.mem with ⟨mem', r⟩
  rw [hl] at h
  cases r with
  | ok u =>
    cases u
    obtain ⟨h1, -⟩ := Prod.mk.injEq .. ▸ h
    obtain rfl : ({ mem := mem', disk := mem' } : GitState) = st' := h1
    exact ⟨rfl, unstageAllLoop_ok changes tree st.mem mem' hl⟩
  | error e0 =>
    exact absurd (Prod.mk.injEq .. ▸ h).2 (by simp)

/-! ### The default-selection characterisation -/

theorem selectDefaultLoop_spec (cur : Nat) :
    ∀ (l : List Change) (i : Nat) (fw : Option Nat),
      selectDefaultLoop cur l i fw =
        match firstIdxWhere isConflicting l with
        | some j => i + j
        | none =>
          match fw with
          | some w => w
          | none =>
            match firstIdxWhere hasWorktreeStatus l with
            | some j => i + j
            | none => cur := by
  intro l
  induction l with
  | nil =>
    intro i fw
    cases fw <;> rfl
  | cons c rest ih =>
    intro i fw
    obtain ⟨cpath, cstatus⟩ := c
    rcases cstatus with flags | ⟨ours, theirs⟩
    · -- non-conflicting entry: recurse with the updated worktree candidate
      have hstep : selectDefaultLoop cur (⟨cpath, .NonConflicting flags⟩ :: rest) i fw
          = selectDefaultLoop cur rest (i + 1)
              (if fw = none ∧ (WORKTREE_STATUSES.any fun ws => flagsIntersect flags ws)
                then some i else fw) := rfl
      rw [hstep, ih]
      have hfc : firstIdxWhere isConflicting (⟨cpath, .NonConflicting flags⟩ :: rest)
          = (firstIdxWhere isConflicting rest).map (· + 1) := by
        simp [firstIdxWhere, isConflicting]
      rw [hfc]
      rcases hc : firstIdxWhere isConflicting rest with _ | j
      · -- no conflicting entry in the tail
        simp only [Option.map_none']
        rcases fw with _ | w
        · by_cases hw : (WORKTREE_STATUSES.any fun ws => flagsIntersect flags ws) = true
          · rw [if_pos ⟨rfl, hw⟩]
            have hfw : firstIdxWhere hasWorktreeStatus
                (⟨cpath, .NonConflicting flags⟩ :: rest) = some 0 := by
              simp [firstIdxWhere, hasWorktreeStatus, hw]
            rw [hfw]
            simp
          · rw [if_neg (by simp [hw])]
            have hfw : firstIdxWhere hasWorktreeStatus
                (⟨cpath, .NonConflicting flags⟩ :: rest)
                = (firstIdxWhere hasWorktreeStatus rest).map (· + 1) := by
              simp [firstIdxWhere, hasWorktreeStatus, hw]
            rw [hfw]
            rcases firstIdxWhere hasWorktreeStatus rest with _ | j
            · rfl
            · simp only [Option.map_some']
              show i + 1 + j = i + (j + 1)
              omega
        · rw [if_neg (by simp)]
      · simp only [Option.map_some']
        show i + 1 + j = i + (j + 1)
        omega
    · -- conflicting entry: the loop returns its index immediately
      have hstep : selectDefaultLoop cur (⟨cpath, .Conflicting ours theirs⟩ :: rest) i fw
          = i := rfl
      rw [hstep]
      have hfc : firstIdxWhere isConflicting (⟨cpath, .Conflicting ours theirs⟩ :: rest)
          = some 0 := by
        simp [firstIdxWhere, isConflicting]
      rw [hfc]
      show i = i + 0
      omega

/-! ## The claims

Each claim of the specification is settled below: a claim-as-stated
predicate (clearly named `…ClaimAsStated`) follows the specification's
words where the code diverges from them, a counterexample refutes it at a
concrete input, and the amended statement is proved from the embedding. -/

/-- The four status bands of `StatusPriorityMap::new`. -/
def indexSingleStatuses : List Status := INDEX_STATUSES.map .NonConflicting

def worktreeSingleStatuses : List Status := WORKTREE_STATUSES.map .NonConflicting

def combinedStatuses : List Status :=
  INDEX_STATUSES.flatMap (fun ist =>
    WORKTREE_STATUSES.map (fun wst => Status.NonConflicting (wst ||| ist)))

def conflictingStatuses : List Status :=
  CONFLICTING_STATUSES.map (fun p => .Conflicting p.1 p.2)

/-- The status is mapped, with a priority in `[lo, hi)`. -/
def rankBetween (s : Status) (lo hi : Nat) : Bool :=
  match alGet spmNew s with
  | some r => decide (lo ≤ r ∧ r < hi)
  | none => false

/-- Formalisation of claim C3's words: unique ranks, with the bands in the
order the claim lists them — single index states, then single worktree
states, then the combinations, then the untracked sentinel, then the
conflicting states. -/
def c3ClaimAsStated : Prop :=
  (alValues spmNew).Nodup ∧
  (∀ s ∈ indexSingleStatuses, ∀ t ∈ worktreeSingleStatuses,
    ∀ rs rt, alGet spmNew s = some rs → alGet spmNew t = some rt → rs < rt) ∧
  (∀ s ∈ worktreeSingleStatuses, ∀ t ∈ combinedStatuses,
    ∀ rs rt, alGet spmNew s = some rs → alGet spmNew t = some rt → rs < rt) ∧
  (∀ s ∈ combinedStatuses,
    ∀ rs ru, alGet spmNew s = some rs →
      alGet spmNew (.NonConflicting WT_NEW) = some ru → rs < ru) ∧
  (∀ s, (s ∈ indexSingleStatuses ∨ s ∈ worktreeSingleStatuses ∨
      s ∈ combinedStatuses) → ∀ t ∈ conflictingStatuses,
    ∀ rs rt, alGet spmNew s = some rs → alGet spmNew t = some rt → rs < rt)

/-- C3 counterexample: the single worktree state `WT_MODIFIED` has rank 30,
ranked *after* the combination `INDEX_MODIFIED | WT_MODIFIED` (rank 5), so
the claim's band order — single worktree states before combinations — is
wrong for `StatusPriorityMap::new` in `src/changes/status_priorities.rs`. -/
theorem c3_counterexample : ¬c3ClaimAsStated := by
  intro h
  have h3 := h.2.2.1 (.NonConflicting WT_MODIFIED) (by decide)
    (.NonConflicting (WT_MODIFIED ||| INDEX_MODIFIED)) (by decide)
    30 5 (by decide) (by decide)
  omega

/-- C3 (amended): `StatusPriorityMap::new` assigns every mapped status a
unique rank, in disjoint bands in this order: the five single index states
(ranks 0–4), then the 25 index×worktree combinations (ranks 5–29), then
the five single worktree states (ranks 30–34) with the untracked sentinel
`WT_NEW` ranked last among all non-conflicting states (rank 34), then the
7 conflicting states (ranks 35–41), which rank after all non-conflicting
states; the map holds exactly these 42 statuses. -/
theorem c3_priority_bands :
    (alValues spmNew).Nodup ∧
    (alKeys spmNew).Nodup ∧
    spmNew.length = 42 ∧
    (∀ s ∈ indexSingleStatuses, rankBetween s 0 5 = true) ∧
    (∀ s ∈ combinedStatuses, rankBetween s 5 30 = true) ∧
    (∀ s ∈ worktreeSingleStatuses, rankBetween s 30 35 = true) ∧
    alGet spmNew (.NonConflicting WT_NEW) = some 34 ∧
    (∀ s ∈ conflictingStatuses, rankBetween s 35 42 = true) ∧
    (∀ e ∈ spmNew, e.1 ∈ indexSingleStatuses ∨ e.1 ∈ worktreeSingleStatuses ∨
      e.1 ∈ combinedStatuses ∨ e.1 ∈ conflictingStatuses) := by
  decide

/-- C4: the conflict-classification table of
`ChangeList::populate_conflicting_changes` maps each presence pattern of
the (ancestor, ours, theirs) entries to exactly the claimed
`(ours, theirs)` pair, and rejects the all-absent pattern as an error. -/
theorem c4_conflict_classification :
    (∀ a o t : IndexEntry,
      classifyConflict (some a) (some o) (some t) = .ok (.Unmerged, .Unmerged)) ∧
    (∀ a o : IndexEntry,
      classifyConflict (some a) (some o) none = .ok (.Unmerged, .Deleted)) ∧
    (∀ a t : IndexEntry,
      classifyConflict (some a) none (some t) = .ok (.Deleted, .Unmerged)) ∧
    (∀ a : IndexEntry,
      classifyConflict (some a) none none = .ok (.Deleted, .Deleted)) ∧
    (∀ o t : IndexEntry,
      classifyConflict none (some o) (some t) = .ok (.Added, .Added)) ∧
    (∀ o : IndexEntry,
      classifyConflict none (some o) none = .ok (.Added, .Unmerged)) ∧
    (∀ t : IndexEntry,
      classifyConflict none none (some t) = .ok (.Unmerged, .Added)) ∧
    classifyConflict none none none = .error .invalidConflictEntry :=
  ⟨fun _ _ _ => rfl, fun _ _ => rfl, fun _ _ => rfl, fun _ => rfl,
   fun _ _ => rfl, fun _ => rfl, fun _ => rfl, rfl⟩

/-- C5: `populate_conflicting_changes` matches index conflict entries and
status-scan conflicted paths 1:1 — whenever it succeeds, it produced one
change per conflict entry and consumed the scan paths exactly (as a
multiset); in every other situation it returns a hard error (it can never
silently drop a path). -/
theorem c5_conflict_matching_one_to_one
    (conflicts : List IndexConflict) (paths : List Path) :
    (∀ changes, populateConflicting conflicts paths = .ok changes →
      changes.length = conflicts.length ∧ (changes.map (·.path)).Perm paths) ∧
    ((¬∃ changes, populateConflicting conflicts paths = .ok changes) →
      ∃ e, populateConflicting conflicts paths = .error e) := by
  constructor
  · intro changes h
    exact populateConflicting_ok_spec conflicts paths changes h
  · intro h
    rcases hres : populateConflicting conflicts paths with e | changes
    · exact ⟨e, rfl⟩
    · exact absurd ⟨changes, hres⟩ h

/-- C5 witness: a conflict entry with only the ancestor present, matching
the single scan path `[97]`, populates successfully, and the theorem
yields the 1:1 match. -/
theorem c5_witness :
    populateConflicting [⟨some (new_index_entry 1 33188 [97]), none, none⟩] [[97]]
        = .ok [⟨[97], .Conflicting .Deleted .Deleted⟩] ∧
    ([(⟨[97], .Conflicting .Deleted .Deleted⟩ : Change)].length = 1 ∧
      (([(⟨[97], .Conflicting .Deleted .Deleted⟩ : Change)]).map (·.path)).Perm [[97]]) :=
  ⟨rfl,
   (c5_conflict_matching_one_to_one
      [⟨some (new_index_entry 1 33188 [97]), none, none⟩] [[97]]).1
    [⟨[97], .Conflicting .Deleted .Deleted⟩] rfl⟩

/-- Formalisation of claim C6's words: comparing an unmapped status never
silently orders it before or equal to a mapped status. -/
def c6ClaimAsStated : Prop :=
  ∀ s t : Status, alGet spmNew s = none → (alGet spmNew t).isSome →
    compareStatuses spmNew s t ≠ .lt ∧ compareStatuses spmNew s t ≠ .eq

/-- C6 counterexample: `compare_statuses` in
`src/changes/status_priorities.rs` compares the two `HashMap::get` results
as `Option`s, and `None < Some`, so the unmapped status
`INDEX_MODIFIED | INDEX_NEW` silently compares `Less` against the mapped
`INDEX_MODIFIED` — no panic, no loud failure. -/
theorem c6_counterexample : ¬c6ClaimAsStated := by
  intro h
  have := h (.NonConflicting (INDEX_MODIFIED ||| INDEX_NEW))
    (.NonConflicting INDEX_MODIFIED) (by decide) (by decide)
  exact this.1 (by decide)

/-- C6 (amended): looking up an unmapped status is *not* a loud failure in
`src/changes/status_priorities.rs`: the `Option` comparison makes every
unmapped status silently order strictly before every mapped status (and
equal to any other unmapped status). -/
theorem c6_unmapped_compares_silently (s t : Status)
    (hs : alGet spmNew s = none) :
    ((alGet spmNew t).isSome →
      compareStatuses spmNew s t = .lt ∧ compareStatuses spmNew t s = .gt) ∧
    (alGet spmNew t = none → compareStatuses spmNew s t = .eq) := by
  constructor
  · intro ht
    rcases h : alGet spmNew t with _ | v
    · rw [h] at ht
      simp at ht
    · unfold compareStatuses
      rw [hs, h]
      exact ⟨rfl, rfl⟩
  · intro ht
    unfold compareStatuses
    rw [hs, ht]
    rfl

/-- C6 witness: the unmapped `INDEX_MODIFIED | INDEX_NEW` compares `Less`
against the mapped `INDEX_MODIFIED`. -/
theorem c6_witness :
    alGet spmNew (Status.NonConflicting (INDEX_MODIFIED ||| INDEX_NEW)) = none ∧
    compareStatuses spmNew (.NonConflicting (INDEX_MODIFIED ||| INDEX_NEW))
      (.NonConflicting INDEX_MODIFIED) = .lt :=
  ⟨by decide,
   ((c6_unmapped_compares_silently
      (.NonConflicting (INDEX_MODIFIED ||| INDEX_NEW))
      (.NonConflicting INDEX_MODIFIED) (by decide)).1 (by decide)).1⟩

/-- Formalisation of claim C8's words: the default selection is the first
conflicted entry; else the first entry intersecting a worktree state; else
*no entry is selected* (the cursor points at no valid index). -/
def c8ClaimAsStated : Prop :=
  ∀ (changes : List Change) (cur : Nat), changes ≠ [] →
    match firstIdxWhere isConflicting changes with
    | some i => selectDefaultChange changes cur = i
    | none =>
      match firstIdxWhere hasWorktreeStatus changes with
      | some i => selectDefaultChange changes cur = i
      | none => ∀ j < changes.length, selectDefaultChange changes cur ≠ j

/-- C8 counterexample: for the non-empty list holding one index-modified
(no conflict, no worktree state) change, `select_default_change` leaves the
cursor at 0, which selects the first entry — there is no "no selection"
outcome for a non-empty list. -/
theorem c8_counterexample : ¬c8ClaimAsStated := by
  intro h
  have := h [⟨[97], .NonConflicting INDEX_MODIFIED⟩] 0 (by simp)
  exact this 0 (by decide) rfl

/-- C8 (amended): for every change list, `select_default_change` selects
the first conflicted entry if any; otherwise the first entry whose status
intersects a worktree-side state; otherwise it leaves the cursor
unchanged (so at construction, where the cursor starts at 0 and the list
is non-empty, the first entry stays selected). -/
theorem c8_select_default_spec (changes : List Change) (cur : Nat) :
    selectDefaultChange changes cur =
      match firstIdxWhere isConflicting changes with
      | some i => i
      | none =>
        match firstIdxWhere hasWorktreeStatus changes with
        | some i => i
        | none => cur := by
  unfold selectDefaultChange
  by_cases h : changes.isEmpty
  · rw [if_pos h]
    have : changes = [] := List.isEmpty_iff.mp h
    subst this
    rfl
  · rw [if_neg h]
    rw [selectDefaultLoop_spec]
    rcases firstIdxWhere isConflicting changes with _ | j
    · rcases firstIdxWhere hasWorktreeStatus changes with _ | j
      · rfl
      · show 0 + j = j
        omega
    · show 0 + j = j
      omega

/-- Formalisation of claim C1's words (the part the code contradicts): in a
resort, among two paths with no recorded position, the byte-lexicographically
smaller path receives the smaller fresh position. -/
def c1ClaimAsStated : Prop :=
  ∀ (m : OrdMap) (changes : List Change),
    ∀ c1 ∈ changes, ∀ c2 ∈ changes,
      alGet m c1.path = none → alGet m c2.path = none →
      cmpList c1.path c2.path = .lt →
      ∀ r1 r2, alGet (sortChanges m changes).map c1.path = some r1 →
        alGet (sortChanges m changes).map c2.path = some r2 → r1 < r2

/-- C1 counterexample: `compare_paths` orders by the `from_utf8_lossy`
decodings, not by path bytes.  The invalid byte `[0xFF]` decodes to U+FFFD
while the valid `[0xF0,0x90,0x80,0x80]` decodes to U+10000 > U+FFFD, so the
byte-lexicographically smaller `[0xF0,…]` receives fresh position 2 and the
larger `[0xFF]` position 1, contradicting the claimed byte-lexicographic
tie-break. -/
theorem c1_counterexample : ¬c1ClaimAsStated := by
  intro h
  have := h [([97], 0)]
    [⟨[0xF0, 0x90, 0x80, 0x80], .NonConflicting 2⟩, ⟨[0xFF], .NonConflicting 2⟩]
    ⟨[0xF0, 0x90, 0x80, 0x80], .NonConflicting 2⟩ (by decide)
    ⟨[0xFF], .NonConflicting 2⟩ (by decide)
    (by decide) (by decide) (by decide)
    2 1 (by decide) (by decide)
  omega

/-- C1 (amended): for every resort with pairwise-distinct paths whose
unrecorded paths also have pairwise-distinct `from_utf8_lossy` decodings:
(1) changes with unrecorded paths are placed after every change with a
recorded position; (2) among themselves they are ordered by the
lexicographic order of their decoded paths (`compare_paths`), which
coincides with byte order for valid UTF-8 paths but not in general;
(3) recorded positions are untouched; (4) the new paths are assigned fresh
permanent positions `m.length, m.length + 1, …` in that decoded order,
extending the map (5); (6) when the change set has at least two entries
every unrecorded path receives a position (a singleton change set never
invokes the sort comparator, so its lone new path is not collected);
(7) under the position invariant the fresh positions start exactly at
`current_max_position + 1`, since every recorded position is below the
map's size. -/
theorem c1_resort_spec (m : OrdMap) (changes : List Change)
    (hnodup : (changes.map (·.path)).Nodup)
    (hlossy : LossyDistinct m changes) :
    (sortChanges m changes).changes.Pairwise
        (fun a b => alGet m a.path = none → alGet m b.path = none) ∧
    (sortChanges m changes).changes.Pairwise
        (fun a b => alGet m a.path = none → alGet m b.path = none →
          comparePaths a.path b.path = .lt) ∧
    (∀ p, (alGet m p).isSome → alGet (sortChanges m changes).map p = alGet m p) ∧
    (∀ i, ∀ h : i < (sortedNewPaths m changes).length,
      alGet (sortChanges m changes).map ((sortedNewPaths m changes).get ⟨i, h⟩)
        = some (m.length + i)) ∧
    (sortChanges m changes).map.length
        = m.length + (sortedNewPaths m changes).length ∧
    (∀ c ∈ changes, 2 ≤ changes.length → alGet m c.path = none →
      (alGet (sortChanges m changes).map c.path).isSome) ∧
    (goodMap m → ∀ v ∈ alValues m, v < m.length) :=
  ⟨sortChanges_known_before_new m changes,
   sortChanges_new_strictly_sorted m changes hnodup hlossy,
   fun p hp => sortChanges_map_preserved m changes p hp,
   fun i h => sortChanges_map_fresh m changes i h,
   sortChanges_map_length m changes,
   fun c hc h2 hnone => sortChanges_map_new_recorded m changes c.path
     (mem_collectNewPaths.mpr ⟨h2, hnone, c, hc, rfl⟩),
   fun hg v hv => by
     have := hg.2.mem_iff.mp hv
     simpa using this⟩

/-- C1 witness: resorting the two fresh paths `[98]`, `[99]` against the
seeded map `{[97] ↦ 0}` assigns both a position. -/
theorem c1_witness :
    (alGet (sortChanges [([97], 0)]
      [⟨[98], .NonConflicting 2⟩, ⟨[99], .NonConflicting 2⟩]).map [98]).isSome ∧
    (alGet (sortChanges [([97], 0)]
      [⟨[98], .NonConflicting 2⟩, ⟨[99], .NonConflicting 2⟩]).map [99]).isSome := by
  have h := c1_resort_spec [([97], 0)]
    [⟨[98], .NonConflicting 2⟩, ⟨[99], .NonConflicting 2⟩] (by decide) (by decide)
  exact ⟨h.2.2.2.2.2.1 ⟨[98], .NonConflicting 2⟩ (by decide) (by decide) (by decide),
         h.2.2.2.2.2.1 ⟨[99], .NonConflicting 2⟩ (by decide) (by decide) (by decide)⟩

/-- C2: seeding and then resorting the unchanged change set, and resorting
twice in a row, are idempotent: the repeated sort returns the same order,
leaves the map unchanged and reports zero new paths (the empty change set
included, by instantiation).  The resort-twice half assumes the position
invariant on the starting map — established by seeding and preserved by
every resort — and pairwise-distinct path decodings (with colliding
decodings the relative order of fresh positions depends on the sort's
unspecified comparator invocation order). -/
theorem c2_resort_idempotent (m : OrdMap) (changes : List Change)
    (hnodup : (changes.map (·.path)).Nodup)
    (hg : goodMap m) (hlossy : LossyDistinct m changes) :
    ((sortChanges (seedChanges [] changes).2 (seedChanges [] changes).1).changes
        = (seedChanges [] changes).1 ∧
      (sortChanges (seedChanges [] changes).2 (seedChanges [] changes).1).map
        = (seedChanges [] changes).2 ∧
      (sortChanges (seedChanges [] changes).2 (seedChanges [] changes).1).newCount
        = 0) ∧
    ((sortChanges (sortChanges m changes).map (sortChanges m changes).changes).changes
        = (sortChanges m changes).changes ∧
      (sortChanges (sortChanges m changes).map (sortChanges m changes).changes).map
        = (sortChanges m changes).map ∧
      (sortChanges (sortChanges m changes).map (sortChanges m changes).changes).newCount
        = 0) :=
  ⟨seed_then_resort_id changes hnodup,
   resort_twice_id m changes hg hnodup hlossy⟩

/-- C2 witness: idempotence at a two-change set and at the empty set. -/
theorem c2_witness :
    (sortChanges (seedChanges [] [⟨[98], .NonConflicting 2⟩, ⟨[97], .NonConflicting 2⟩]).2
      (seedChanges [] [⟨[98], .NonConflicting 2⟩, ⟨[97], .NonConflicting 2⟩]).1).newCount = 0 ∧
    (sortChanges (sortChanges [] [⟨[98], .NonConflicting 2⟩, ⟨[97], .NonConflicting 2⟩]).map
      (sortChanges [] [⟨[98], .NonConflicting 2⟩, ⟨[97], .NonConflicting 2⟩]).changes).newCount = 0 ∧
    (sortChanges (seedChanges [] ([] : List Change)).2
      (seedChanges [] ([] : List Change)).1).newCount = 0 := by
  refine ⟨?_, ?_, ?_⟩
  · exact (c2_resort_idempotent []
      [⟨[98], .NonConflicting 2⟩, ⟨[97], .NonConflicting 2⟩]
      (by decide) goodMap_nil (by decide)).1.2.2
  · exact (c2_resort_idempotent []
      [⟨[98], .NonConflicting 2⟩, ⟨[97], .NonConflicting 2⟩]
      (by decide) goodMap_nil (by decide)).2.2.2
  · exact (c2_resort_idempotent [] [] (by decide) goodMap_nil (by decide)).1.2.2

/-- C7: `Change::unstage` — for a change whose status is not index-new, the
path's (blob id, file mode) is looked up in the HEAD tree and exactly that
pair is re-inserted into the index as an entry with all timestamp, device,
inode and size metadata zeroed, so the index entry for that path matches
HEAD (and a missing tree entry is an error); for an index-new change, the
path is removed from the index entirely. -/
theorem c7_unstage_spec (c : Change) (idx : GitIndex) (tree : Tree) :
    (statusIsIndexNew c.status = false →
      (∀ te, alGet tree c.path = some te →
        unstage c idx tree
            = .ok (indexAdd idx (new_index_entry te.id te.filemode c.path)) ∧
        indexFind (indexAdd idx (new_index_entry te.id te.filemode c.path)) c.path
            = some (new_index_entry te.id te.filemode c.path) ∧
        (new_index_entry te.id te.filemode c.path).id = te.id ∧
        (new_index_entry te.id te.filemode c.path).mode = te.filemode ∧
        (new_index_entry te.id te.filemode c.path).ctime = (0, 0) ∧
        (new_index_entry te.id te.filemode c.path).mtime = (0, 0) ∧
        (new_index_entry te.id te.filemode c.path).dev = 0 ∧
        (new_index_entry te.id te.filemode c.path).ino = 0 ∧
        (new_index_entry te.id te.filemode c.path).file_size = 0) ∧
      (alGet tree c.path = none →
        unstage c idx tree = .error (.treeEntryNotFound c.path))) ∧
    (statusIsIndexNew c.status = true →
      unstage c idx tree = .ok (indexRemovePath idx c.path) ∧
      indexFind (indexRemovePath idx c.path) c.path = none) := by
  refine ⟨fun hfalse => ⟨fun te hte => ?_, fun hnone => ?_⟩, fun htrue => ?_⟩
  · unfold unstage
    rw [if_neg (by simp [hfalse]), hte]
    exact ⟨rfl, indexFind_add_self idx _, rfl, rfl, rfl, rfl, rfl, rfl, rfl⟩
  · unfold unstage
    rw [if_neg (by simp [hfalse]), hnone]
  · unfold unstage
    rw [if_pos (by simp [htrue])]
    exact ⟨rfl, indexFind_remove_self idx c.path⟩

/-- C7 witness: unstaging a tracked modified file restores HEAD's
(id, mode) = (7, 33188); unstaging an index-new file removes it. -/
theorem c7_witness :
    unstage ⟨[97], .NonConflicting INDEX_MODIFIED⟩ [new_index_entry 9 33188 [97]]
        [([97], ⟨7, 33188⟩)]
      = .ok (indexAdd [new_index_entry 9 33188 [97]] (new_index_entry 7 33188 [97])) ∧
    indexFind (indexAdd [new_index_entry 9 33188 [97]] (new_index_entry 7 33188 [97]))
      [97] = some (new_index_entry 7 33188 [97]) ∧
    unstage ⟨[98], .NonConflicting INDEX_NEW⟩ [new_index_entry 4 33188 [98]] []
      = .ok (indexRemovePath [new_index_entry 4 33188 [98]] [98]) ∧
    indexFind (indexRemovePath [new_index_entry 4 33188 [98]] [98]) [98] = none := by
  have h1 := ((c7_unstage_spec ⟨[97], .NonConflicting INDEX_MODIFIED⟩
    [new_index_entry 9 33188 [97]] [([97], ⟨7, 33188⟩)]).1 (by decide)).1
    ⟨7, 33188⟩ (by decide)
  have h2 := (c7_unstage_spec ⟨[98], .NonConflicting INDEX_NEW⟩
    [new_index_entry 4 33188 [98]] []).2 (by decide)
  exact ⟨h1.1, h1.2.1, h2.1, h2.2⟩

/-- Formalisation of claim C9's words (the part the code contradicts): when
unstage-all fails partway, the on-disk index carries the partial
modifications, i.e. it matches the partially-unstaged in-memory index. -/
def c9ClaimAsStated : Prop :=
  ∀ (changes : List Change) (tree : Tree) (st st' : GitState) (e : GitError),
    unstageAllChanges changes tree st = (st', .error e) → st'.disk = st'.mem

/-- C9 counterexample: with `[97]` in HEAD's tree but `[98]` absent,
unstaging `[[97], [98]]` unstages `[97]` in memory (id 9 → 7) and then
fails on `[98]` — before `index.write()` is reached — so the on-disk index
still holds the original entry (id 9) and differs from the in-memory
one. -/
theorem c9_counterexample : ¬c9ClaimAsStated := by
  intro h
  have := h [⟨[97], .NonConflicting 2⟩, ⟨[98], .NonConflicting 2⟩]
    [([97], ⟨7, 33188⟩)]
    ⟨[new_index_entry 9 33188 [97], new_index_entry 5 33188 [98]],
     [new_index_entry 9 33188 [97], new_index_entry 5 33188 [98]]⟩
    ⟨[new_index_entry 7 33188 [97], new_index_entry 5 33188 [98]],
     [new_index_entry 9 33188 [97], new_index_entry 5 33188 [98]]⟩
    (.treeEntryNotFound [98]) rfl
  exact absurd this (by decide)

/-- C9 (amended): a failure mid-unstage-all surfaces the first error
encountered and leaves the *in-memory* index partially modified — the
entries before the first failing one are unstaged, with no rollback — but
the *on-disk* index is unchanged, because `index.write()` is only reached
on success (on success the in-memory index is written out); likewise a
failed bulk stage-all leaves both indexes untouched and surfaces the
error. -/
theorem c9_all_changes_failure_spec (changes : List Change) (tree : Tree)
    (st st' : GitState) (e : GitError) :
    (unstageAllChanges changes tree st = (st', .error e) →
      st'.disk = st.disk ∧ ∃ k, ∃ hk : k < changes.length,
        unstageList (changes.take k) tree st.mem = .ok st'.mem ∧
        unstage (changes.get ⟨k, hk⟩) st'.mem tree = .error e) ∧
    (unstageAllChanges changes tree st = (st', .ok ()) →
      st'.disk = st'.mem ∧ unstageList changes tree st.mem = .ok st'.mem) ∧
    stageAllChanges (.error e) st = (st, .error e) :=
  ⟨fun h => unstageAllChanges_error_spec changes tree st st' e h,
   fun h => unstageAllChanges_ok_spec changes tree st st' h,
   rfl⟩

/-- C9 witness: the failing unstage-all of the counterexample input
surfaces the tree-lookup error for `[98]`, leaves the on-disk index at its
original value and the in-memory index with `[97]` unstaged. -/
theorem c9_witness :
    (⟨[new_index_entry 7 33188 [97], new_index_entry 5 33188 [98]],
      [new_index_entry 9 33188 [97], new_index_entry 5 33188 [98]]⟩ : GitState).disk
      = (⟨[new_index_entry 9 33188 [97], new_index_entry 5 33188 [98]],
          [new_index_entry 9 33188 [97], new_index_entry 5 33188 [98]]⟩ : GitState).disk ∧
    ∃ k, ∃ hk : k < ([⟨[97], .NonConflicting 2⟩,
        ⟨[98], .NonConflicting 2⟩] : List Change).length,
      unstageList (([⟨[97], .NonConflicting 2⟩,
          ⟨[98], .NonConflicting 2⟩] : List Change).take k) [([97], ⟨7, 33188⟩)]
          [new_index_entry 9 33188 [97], new_index_entry 5 33188 [98]]
        = .ok [new_index_entry 7 33188 [97], new_index_entry 5 33188 [98]] ∧
      unstage (([⟨[97], .NonConflicting 2⟩,
          ⟨[98], .NonConflicting 2⟩] : List Change).get ⟨k, hk⟩)
          [new_index_entry 7 33188 [97], new_index_entry 5 33188 [98]]
          [([97], ⟨7, 33188⟩)]
        = .error (.treeEntryNotFound [98]) :=
  (c9_all_changes_failure_spec
    [⟨[97], .NonConflicting 2⟩, ⟨[98], .NonConflicting 2⟩]
    [([97], ⟨7, 33188⟩)]
    ⟨[new_index_entry 9 33188 [97], new_index_entry 5 33188 [98]],
     [new_index_entry 9 33188 [97], new_index_entry 5 33188 [98]]⟩
    ⟨[new_index_entry 7 33188 [97], new_index_entry 5 33188 [98]],
     [new_index_entry 9 33188 [97], new_index_entry 5 33188 [98]]⟩
    (.treeEntryNotFound [98])).1 rfl

/-- C10: the `ChangeOrdering` map always maps its paths bijectively onto
the positions `0 .. size-1`: seeding records distinct keys whose positions
are exactly `0 .. n-1` (each sorted change's path at its index), and every
resort preserves the invariant, assigning new paths the consecutive
positions starting at the current map size while leaving recorded
positions untouched — so no two paths ever share a position and a fresh
position never collides with an existing one. -/
theorem c10_position_bijection (changes : List Change) (m : OrdMap)
    (hnodup : (changes.map (·.path)).Nodup) (hg : goodMap m) :
    goodMap (seedChanges [] changes).2 ∧
    (∀ i, ∀ h : i < (seedChanges [] changes).1.length,
      alGet (seedChanges [] changes).2 ((seedChanges [] changes).1.get ⟨i, h⟩).path
        = some i) ∧
    goodMap (sortChanges m changes).map ∧
    (∀ i, ∀ h : i < (sortedNewPaths m changes).length,
      alGet (sortChanges m changes).map ((sortedNewPaths m changes).get ⟨i, h⟩)
        = some (m.length + i)) ∧
    (∀ p, (alGet m p).isSome → alGet (sortChanges m changes).map p = alGet m p) :=
  ⟨seedChanges_goodMap changes hnodup,
   fun i h => seedChanges_get changes hnodup i h,
   sortChanges_goodMap m changes hg,
   fun i h => sortChanges_map_fresh m changes i h,
   fun p hp => sortChanges_map_preserved m changes p hp⟩

/-- C10 witness: the invariant concretely, for a seed of two paths and a
resort adding one fresh path to a singleton map. -/
theorem c10_witness :
    goodMap (seedChanges [] [⟨[98], .NonConflicting 2⟩, ⟨[97], .NonConflicting 2⟩]).2 ∧
    goodMap (sortChanges [([97], 0)]
      [⟨[98], .NonConflicting 2⟩, ⟨[97], .NonConflicting 2⟩]).map := by
  have h := c10_position_bijection
    [⟨[98], .NonConflicting 2⟩, ⟨[97], .NonConflicting 2⟩]
    [([97], 0)] (by decide) (by decide)
  exact ⟨h.1, h.2.2.1⟩

end Gadd
